import Mathlib

/-!
Verification of the quest chain engine of the `pom` quest log.

The Rust source (src/quest.rs, src/cli.rs, src/table.rs) is shallowly
embedded: the `quest` table is a `List Quest`, the SQL statements of
`QuestDao` become list functions, and the CLI actions become state-passing
functions over the table, taking the line read from standard input as an
argument.  The recursive common table expression shared by `delete_chain`
and `update_chain_status` is embedded as a bounded fixpoint iteration:
on stores satisfying the documented parent-before-child invariant the
iteration stabilises within `rows.length` rounds, which matches the set
of rows produced by SQLite's least-fixpoint evaluation of the CTE.
-/

namespace Pom

/-- Quest status (`enum Status`, src/quest.rs). -/
inductive Status where
  | pending
  | ongoing
  | completed
  | waiting
  | abandoned
deriving DecidableEq, Repr

/-- Integer encoding of a status, as persisted (`status as i64`). -/
def Status.toInt : Status → Int
  | .pending => 0
  | .ongoing => 1
  | .completed => 2
  | .waiting => 3
  | .abandoned => 4

/-- `Display for Status` (src/quest.rs). -/
def Status.display : Status → String
  | .pending => "Pending"
  | .ongoing => "Ongoing"
  | .completed => "Completed"
  | .waiting => "Waiting"
  | .abandoned => "Abandoned"

/-- Quest tier (`enum Tier`, src/quest.rs). -/
inductive Tier where
  | common
  | rare
  | epic
  | legendary
deriving DecidableEq, Repr

/-- `Display for Tier` (src/quest.rs). -/
def Tier.display : Tier → String
  | .common => "✦ Common"
  | .rare => "✦ Rare"
  | .epic => "✦ Epic"
  | .legendary => "✦ Legendary"

/-- A row of the `quest` table, which is also `struct Quest` (src/quest.rs):
`id INTEGER PRIMARY KEY`, `chain_id INTEGER` (nullable), `objective TEXT`,
`status INTEGER`, `tier INTEGER`. -/
structure Quest where
  id : Int
  chain_id : Option Int
  objective : String
  status : Status
  tier : Tier
deriving DecidableEq, Repr

/-- The persisted `quest` table, one `Quest` per row, kept in ascending
rowid order (SQLite stores rows by `id`, and every query of the DAO either
filters by `id` or orders by `id`). -/
abbrev Store := List Quest

/-! ### The recursive CTE of `delete_chain` (src/quest.rs, lines 149-161)

```
WITH RECURSIVE chain AS (
    SELECT id FROM quest WHERE id = ?1 OR chain_id = ?1
    UNION ALL
    SELECT quest.id FROM quest
    INNER JOIN chain ON quest.chain_id = chain.id
) DELETE FROM quest WHERE id IN (SELECT id FROM chain)
```
-/

/-- Base rows of `delete_chain`'s CTE:
`SELECT id FROM quest WHERE id = ?1 OR chain_id = ?1`. -/
def deleteCteBase (rows : Store) (cid : Int) : List Int :=
  (rows.filter fun q => q.id == cid || q.chain_id == some cid).map Quest.id

/-- One round of `delete_chain`'s recursive step:
`SELECT quest.id FROM quest INNER JOIN chain ON quest.chain_id = chain.id`,
accumulated onto the ids already produced. -/
def deleteCteStep (rows : Store) (acc : List Int) : List Int :=
  acc ++ (rows.filter fun q =>
    match q.chain_id with
    | some p => decide (p ∈ acc)
    | none => false).map Quest.id

/-- `n` rounds of the recursive step over the base rows. -/
def deleteCteIter (rows : Store) (cid : Int) : Nat → List Int
  | 0 => deleteCteBase rows cid
  | n + 1 => deleteCteStep rows (deleteCteIter rows cid n)

/-- The set of ids matched by `delete_chain`'s CTE.  On a store obeying the
parent-before-child invariant the fixpoint is reached within `rows.length`
rounds, so this is the id set SQLite's CTE evaluation produces. -/
def deleteChainIds (rows : Store) (cid : Int) : List Int :=
  deleteCteIter rows cid rows.length

/-- `QuestDao::delete_chain` (src/quest.rs): deletes every row whose id is
matched by the CTE. -/
def deleteChain (rows : Store) (cid : Int) : Store :=
  rows.filter fun q => !decide (q.id ∈ deleteChainIds rows cid)

/-- The ids of the rows `delete_chain` removes. -/
def deleteRemovedIds (rows : Store) (cid : Int) : List Int :=
  (rows.filter fun q => decide (q.id ∈ deleteChainIds rows cid)).map Quest.id

/-! ### The recursive CTE of `update_chain_status` (src/quest.rs, lines 270-282)

```
WITH RECURSIVE chain AS (
    SELECT id FROM quest WHERE id = ?1 OR chain_id = ?1
    UNION ALL
    SELECT quest.id FROM quest
    INNER JOIN chain ON quest.chain_id = chain.id
) UPDATE quest SET status = ?2 WHERE id IN (SELECT id FROM chain)
```
transcribed separately from its own SQL text. -/

/-- Base rows of `update_chain_status`'s CTE:
`SELECT id FROM quest WHERE id = ?1 OR chain_id = ?1`. -/
def updateCteBase (rows : Store) (cid : Int) : List Int :=
  (rows.filter fun q => q.id == cid || q.chain_id == some cid).map Quest.id

/-- One round of `update_chain_status`'s recursive step:
`SELECT quest.id FROM quest INNER JOIN chain ON quest.chain_id = chain.id`. -/
def updateCteStep (rows : Store) (acc : List Int) : List Int :=
  acc ++ (rows.filter fun q =>
    match q.chain_id with
    | some p => decide (p ∈ acc)
    | none => false).map Quest.id

/-- `n` rounds of the recursive step over the base rows. -/
def updateCteIter (rows : Store) (cid : Int) : Nat → List Int
  | 0 => updateCteBase rows cid
  | n + 1 => updateCteStep rows (updateCteIter rows cid n)

/-- The set of ids matched by `update_chain_status`'s CTE. -/
def updateChainIds (rows : Store) (cid : Int) : List Int :=
  updateCteIter rows cid rows.length

/-- `QuestDao::update_chain_status` (src/quest.rs): overwrites the status of
every row whose id is matched by the CTE. -/
def updateChainStatus (rows : Store) (cid : Int) (st : Status) : Store :=
  rows.map fun q =>
    if q.id ∈ updateChainIds rows cid then { q with status := st } else q

/-- The ids of the rows whose status `update_chain_status` overwrites. -/
def updateTouchedIds (rows : Store) (cid : Int) : List Int :=
  (rows.filter fun q => decide (q.id ∈ updateChainIds rows cid)).map Quest.id

/-! ### The remaining DAO operations (src/quest.rs) -/

/-- The error taxonomy of the store layer (spec section 7).  In the Rust
source these surface as `rusqlite` errors unwrapped by `expect`, aborting
the operation. -/
inductive DaoError where
  | notFound
  | constraintViolation
deriving DecidableEq, Repr

/-- `QuestDao::get_quest` (src/quest.rs):
`SELECT id, chain_id, objective, status, tier FROM quest WHERE id = ?1`,
taking the first matching row; `query_row` reports `QueryReturnedNoRows`
(the spec's `NotFound`) when there is none, modelled as `none`. -/
def getQuest (rows : Store) (qid : Int) : Option Quest :=
  rows.find? fun q => q.id == qid

/-- `QuestDao::get_all_quests` (src/quest.rs):
`SELECT id, chain_id, objective, status, tier FROM quest ORDER BY id`.
The store keeps its rows in id order, so this is the row list itself. -/
def getAllQuests (rows : Store) : List Quest :=
  rows

/-- `QuestDao::is_main_quest` (src/quest.rs):
`SELECT COUNT() FROM quest WHERE chain_id = ?1`, compared with `> 0`. -/
def isMainQuest (rows : Store) (qid : Int) : Bool :=
  decide (0 < (rows.filter fun q => q.chain_id == some qid).length)

/-- The rowid SQLite assigns to an inserted row: one larger than the
largest rowid in use, `1` on an empty table (every id the store ever
assigns is positive, so the `max` with `0` agrees with SQLite). -/
def nextId (rows : Store) : Int :=
  (rows.foldl (fun a q => max a q.id) 0) + 1

/-- `QuestDao::add_quest` (src/quest.rs): `INSERT INTO quest (objective,
status, tier, chain_id) VALUES (?1, ?2, ?3, ?4)`; the table declares
`FOREIGN KEY (chain_id) REFERENCES quest(id)`.
Modelled from the spec: whether SQLite enforces that declared foreign key
is decided by the build configuration (Cargo.toml, not under src/), and the
spec says the insert "fails with `ConstraintViolation` if `chain_id`
references a non-existent id", so enforcement is modelled as on. -/
def addQuest (rows : Store) (quest : Quest) : Except DaoError (Store × Int) :=
  let inserted : Quest :=
    ⟨nextId rows, quest.chain_id, quest.objective, quest.status, quest.tier⟩
  match quest.chain_id with
  | some p =>
      if rows.any (fun r => r.id == p) then .ok (rows ++ [inserted], nextId rows)
      else .error .constraintViolation
  | none => .ok (rows ++ [inserted], nextId rows)

/-- `QuestDao::update_quest` (src/quest.rs):
`UPDATE quest SET chain_id = ?1, objective = ?2, status = ?3, tier = ?4
WHERE id = ?5`.  The UPDATE overwrites every row whose id matches and
returns the number of affected rows; `conn.execute` returns `Ok(0)` — not
an error — when no row matches. -/
def updateQuest (rows : Store) (quest : Quest) : Store × Nat :=
  (rows.map fun r =>
    if r.id == quest.id then
      ⟨r.id, quest.chain_id, quest.objective, quest.status, quest.tier⟩
    else r,
   (rows.filter fun r => r.id == quest.id).length)

/-- Modelled from the spec: spec section 4.1 describes the store operation
`update(quest)` as failing "with `NotFound` if absent" — the comparison
point for what `update_quest` actually does. -/
def updateQuestSpec (rows : Store) (quest : Quest) : Except DaoError Store :=
  if rows.any (fun r => r.id == quest.id) then .ok (updateQuest rows quest).1
  else .error .notFound

/-! ### The CLI actions (src/cli.rs)

Each action is a function of the store and, where the action may prompt,
of the line read from standard input.  The result records the store after
the action, how the action reported (`Outcome`), and whether a
confirmation prompt was issued (`prompted` is set exactly where the Rust
code calls `confirmation_warning`). -/

/-- How a CLI action reported: mutated and announced success (`done`),
no-op because the status was already the target (`alreadyDone`), skipped
because the user declined the confirmation prompt (`declined`), or aborted
because the quest id has no row (`notFound`, a panic of `get_quest` in the
source). -/
inductive Outcome where
  | done
  | alreadyDone
  | declined
  | notFound
deriving DecidableEq, Repr

/-- Result of a CLI action: final store, report, and whether a
confirmation prompt was issued. -/
structure CliResult where
  store : Store
  outcome : Outcome
  prompted : Bool
deriving DecidableEq, Repr

/-- Whitespace for `str::trim` (modelled on the ASCII whitespace a line
read from standard input can carry). -/
def isSpaceChar (c : Char) : Bool :=
  c == ' ' || c == '\t' || c == '\n' || c == '\r'

/-- `str::trim`: drop whitespace from both ends, on the character list. -/
def trimChars (cs : List Char) : List Char :=
  ((cs.dropWhile isSpaceChar).reverse.dropWhile isSpaceChar).reverse

/-- `str::to_lowercase` on one character (ASCII case folding suffices for
the `"y"`/`"yes"` comparison). -/
def lowerChar (c : Char) : Char :=
  if 'A' ≤ c ∧ c ≤ 'Z' then Char.ofNat (c.toNat + 32) else c

/-- `input.trim().to_lowercase()` over the characters of the input line. -/
def normalizedInput (input : String) : List Char :=
  (trimChars input.data).map lowerChar

/-- `Cli::confirmation_warning` (src/cli.rs): reads a line, trims it,
lowercases it, and proceeds only on `"y"` or `"yes"`. -/
def confirmationWarning (input : String) : Bool :=
  let t := normalizedInput input
  t == "y".data || t == "yes".data

/-- `Cli::abandon_quest` (src/cli.rs): fetch the quest; if already
abandoned report a no-op; if it is a main quest ask for confirmation and
stop when declined; otherwise cascade `Status::Abandoned` over the chain. -/
def abandonQuest (rows : Store) (qid : Int) (input : String) : CliResult :=
  match getQuest rows qid with
  | none => ⟨rows, .notFound, false⟩
  | some quest =>
      if quest.status = .abandoned then ⟨rows, .alreadyDone, false⟩
      else if isMainQuest rows qid && !confirmationWarning input then
        ⟨rows, .declined, true⟩
      else
        ⟨updateChainStatus rows qid .abandoned, .done, isMainQuest rows qid⟩

/-- `Cli::accept_quest` (src/cli.rs): fetch the quest; if already ongoing
report a no-op; otherwise set its status to ongoing and store it through
`update_quest`.  No confirmation prompt exists on this path. -/
def acceptQuest (rows : Store) (qid : Int) : CliResult :=
  match getQuest rows qid with
  | none => ⟨rows, .notFound, false⟩
  | some quest =>
      if quest.status = .ongoing then ⟨rows, .alreadyDone, false⟩
      else ⟨(updateQuest rows { quest with status := .ongoing }).1, .done, false⟩

/-- `Cli::complete_quest` (src/cli.rs): like `abandon_quest` with
`Status::Completed`. -/
def completeQuest (rows : Store) (qid : Int) (input : String) : CliResult :=
  match getQuest rows qid with
  | none => ⟨rows, .notFound, false⟩
  | some quest =>
      if quest.status = .completed then ⟨rows, .alreadyDone, false⟩
      else if isMainQuest rows qid && !confirmationWarning input then
        ⟨rows, .declined, true⟩
      else
        ⟨updateChainStatus rows qid .completed, .done, isMainQuest rows qid⟩

/-- `Cli::delete_quest` (src/cli.rs): always ask for confirmation, then
cascade the delete through `delete_chain`. -/
def deleteQuest (rows : Store) (qid : Int) (input : String) : CliResult :=
  if !confirmationWarning input then ⟨rows, .declined, true⟩
  else ⟨deleteChain rows qid, .done, true⟩

/-! ### Store invariants

Spec section 3: ids are store-assigned, unique and ascending, and a
present `chain_id` references an already-existing quest, so
`parent.id < child.id` always holds.  Both are Bool-valued so concrete
stores can discharge them by evaluation. -/

/-- Rows are strictly ascending by id (the order `get_all_quests` returns
and the uniqueness of the primary key). -/
def ascendingIdsB : Store → Bool
  | [] => true
  | [_] => true
  | q :: r :: rest => decide (q.id < r.id) && ascendingIdsB (r :: rest)

/-- Every present `chain_id` references an existing quest with a smaller
id. -/
def parentBeforeChildB (rows : Store) : Bool :=
  rows.all fun q =>
    match q.chain_id with
    | none => true
    | some p => decide (p < q.id) && rows.any fun r => decide (r.id = p)

/-- No two rows share an id (consequence of the primary key; implied by
`ascendingIdsB` but needed on its own for unordered stores). -/
def uniqueIdsB (rows : Store) : Bool :=
  decide (rows.map Quest.id).Nodup

/-- The four-quest scenario of spec section 8: quest 1 a root, quests 2
and 4 children of 1, quest 3 a child of 2. -/
def scenarioQuests : Store :=
  [⟨1, none, "Defeat dragon", .pending, .common⟩,
   ⟨2, some 1, "Find sword", .pending, .common⟩,
   ⟨3, some 2, "Sharpen sword", .pending, .common⟩,
   ⟨4, some 1, "Train stamina", .pending, .common⟩]

/-! ### C2: cascade equivalence -/

theorem updateCteBase_eq_deleteCteBase (rows : Store) (cid : Int) :
    updateCteBase rows cid = deleteCteBase rows cid := rfl

theorem updateCteIter_eq_deleteCteIter (rows : Store) (cid : Int) (n : Nat) :
    updateCteIter rows cid n = deleteCteIter rows cid n := by
  induction n with
  | zero => rfl
  | succ n ih =>
      simp only [updateCteIter, deleteCteIter, updateCteStep, deleteCteStep, ih]

theorem updateChainIds_eq_deleteChainIds (rows : Store) (cid : Int) :
    updateChainIds rows cid = deleteChainIds rows cid :=
  updateCteIter_eq_deleteCteIter rows cid rows.length

/-- C2: for every store state, every id, and every status, the set of quest
ids whose status `update_chain_status` overwrites equals the set of quest ids
`delete_chain` removes from the same state — the two statements share one
recursive-CTE membership set. -/
theorem cascade_touches_eq_cascade_removes (rows : Store) (cid : Int)
    (_st : Status) :
    updateTouchedIds rows cid = deleteRemovedIds rows cid := by
  unfold updateTouchedIds deleteRemovedIds
  rw [updateChainIds_eq_deleteChainIds]

/-! ### Supporting lemmas for the store operations -/

theorem le_foldl_max (rows : Store) (a : Int) :
    a ≤ rows.foldl (fun b q => max b q.id) a := by
  induction rows generalizing a with
  | nil => simp
  | cons q rest ih => exact le_trans (le_max_left _ _) (ih _)

theorem mem_le_foldl_max (rows : Store) (r : Quest) (hr : r ∈ rows) (a : Int) :
    r.id ≤ rows.foldl (fun b q => max b q.id) a := by
  induction rows generalizing a with
  | nil => cases hr
  | cons q rest ih =>
      rcases List.mem_cons.mp hr with h | h
      · subst h
        exact le_trans (le_max_right a r.id) (le_foldl_max rest _)
      · exact ih h _

theorem mem_id_lt_nextId (rows : Store) (r : Quest) (hr : r ∈ rows) :
    r.id < nextId rows :=
  lt_of_le_of_lt (mem_le_foldl_max rows r hr 0) (lt_add_one _)

theorem nodup_ids_inj (rows : Store) (hnd : (rows.map Quest.id).Nodup)
    (x y : Quest) (hx : x ∈ rows) (hy : y ∈ rows) (hid : x.id = y.id) :
    x = y :=
  List.inj_on_of_nodup_map hnd hx hy hid

theorem filter_eq_id_singleton (r : Quest) :
    ∀ rows : Store, (rows.map Quest.id).Nodup → r ∈ rows →
      rows.filter (fun x => x.id == r.id) = [r] := by
  intro rows
  induction rows with
  | nil => intro _ hr; cases hr
  | cons q rest ih =>
      intro hnd hr
      rw [List.map_cons, List.nodup_cons] at hnd
      rcases List.mem_cons.mp hr with h | h
      · subst h
        have hq : rest.filter (fun x => x.id == r.id) = [] := by
          apply List.filter_eq_nil_iff.mpr
          intro x hx
          simp only [beq_iff_eq]
          intro hxr
          have hmem : x.id ∈ rest.map Quest.id := List.mem_map_of_mem Quest.id hx
          rw [hxr] at hmem
          exact hnd.1 hmem
        simp [List.filter_cons, hq]
      · have hqr : (q.id == r.id) = false := by
          simp only [beq_eq_false_iff_ne, ne_eq]
          intro hqr
          have hmem : r.id ∈ rest.map Quest.id := List.mem_map_of_mem Quest.id h
          rw [← hqr] at hmem
          exact hnd.1 hmem
        simp [List.filter_cons, hqr, ih hnd.2 h]

/-! ### C4: foreign-key constraint on insert -/

/-- C4: `add_quest` on a quest whose `chain_id` references a missing id
fails with `ConstraintViolation` and inserts no row; on a quest whose
`chain_id` is absent or references an existing id it inserts exactly one
new row (with the store-assigned id). -/
theorem add_quest_checks_parent (rows : Store) (quest : Quest) :
    (∀ p, quest.chain_id = some p → (∀ r ∈ rows, r.id ≠ p) →
      addQuest rows quest = .error .constraintViolation) ∧
    ((quest.chain_id = none ∨ ∃ p, quest.chain_id = some p ∧ ∃ r ∈ rows, r.id = p) →
      addQuest rows quest =
        .ok (rows ++
              [⟨nextId rows, quest.chain_id, quest.objective, quest.status, quest.tier⟩],
             nextId rows)) := by
  constructor
  · intro p hp hnone
    have hany : (rows.any fun r => r.id == p) = false := by
      rw [List.any_eq_false]
      intro x hx
      simpa using hnone x hx
    simp [addQuest, hp, hany]
  · rintro (hnone | ⟨p, hp, r, hr, hrid⟩)
    · simp [addQuest, hnone]
    · have hany : (rows.any fun r => r.id == p) = true := by
        simp only [List.any_eq_true, beq_iff_eq]
        exact ⟨r, hr, hrid⟩
      simp [addQuest, hp, hany]

/-- Witness for C4 at concrete inputs: inserting a quest whose `chain_id`
is the dangling id 42 into the empty store is rejected, and inserting a
child of quest 2 into the four-quest scenario appends exactly one row with
id 5. -/
theorem add_quest_checks_parent_witness :
    addQuest [] ⟨-1, some 42, "slay", .pending, .common⟩
      = .error .constraintViolation ∧
    addQuest scenarioQuests ⟨-1, some 2, "polish sword", .waiting, .rare⟩
      = .ok (scenarioQuests ++ [⟨5, some 2, "polish sword", .waiting, .rare⟩], 5) := by
  constructor
  · exact (add_quest_checks_parent [] _).1 42 rfl (by intro r hr; cases hr)
  · have h := (add_quest_checks_parent scenarioQuests
      ⟨-1, some 2, "polish sword", .waiting, .rare⟩).2
      (Or.inr ⟨2, rfl, ⟨2, some 1, "Find sword", .pending, .common⟩, by decide, rfl⟩)
    simpa [scenarioQuests, nextId] using h

/-! ### C9: round trip through add and get -/

/-- C9: adding a valid quest (chain_id absent or referencing an existing
id) and fetching the quest under the id the store assigned returns a quest
whose objective, status, tier and chain_id equal those of the input. -/
theorem add_then_get_round_trip (rows : Store) (quest : Quest)
    (hvalid : quest.chain_id = none ∨
      ∃ p, quest.chain_id = some p ∧ ∃ r ∈ rows, r.id = p) :
    addQuest rows quest =
      .ok (rows ++
            [⟨nextId rows, quest.chain_id, quest.objective, quest.status, quest.tier⟩],
           nextId rows) ∧
    getQuest
        (rows ++
          [⟨nextId rows, quest.chain_id, quest.objective, quest.status, quest.tier⟩])
        (nextId rows) =
      some ⟨nextId rows, quest.chain_id, quest.objective, quest.status, quest.tier⟩ := by
  refine ⟨(add_quest_checks_parent rows quest).2 hvalid, ?_⟩
  unfold getQuest
  have hnone : rows.find? (fun q => q.id == nextId rows) = none := by
    apply List.find?_eq_none.mpr
    intro x hx
    simp only [beq_iff_eq]
    exact ne_of_lt (mem_id_lt_nextId rows x hx)
  rw [List.find?_append, hnone]
  simp

/-- Witness for C9: appending a child of quest 1 to the four-quest
scenario and reading id 5 back returns the inserted fields. -/
theorem add_then_get_round_trip_witness :
    getQuest
        (scenarioQuests ++ [⟨nextId scenarioQuests, some 1, "Rest", .waiting, .epic⟩])
        (nextId scenarioQuests) =
      some ⟨nextId scenarioQuests, some 1, "Rest", .waiting, .epic⟩ :=
  (add_then_get_round_trip scenarioQuests ⟨-1, some 1, "Rest", .waiting, .epic⟩
    (Or.inr ⟨1, rfl, ⟨1, none, "Defeat dragon", .pending, .common⟩, by decide, rfl⟩)).2

/-! ### C5: update on a missing id -/

/-- C5 counterexample: on the one-row store `[quest 1]`, updating a quest
with the absent id 99 does not fail at all — the UPDATE matches zero rows,
returns affected count 0 and leaves the store unchanged — whereas the
claimed behaviour (`updateQuestSpec`, modelled from the spec's words)
is a `NotFound` failure. -/
theorem update_quest_missing_id_counterexample :
    updateQuest [⟨1, none, "a", .pending, .common⟩] ⟨99, none, "b", .ongoing, .rare⟩
      = ([⟨1, none, "a", .pending, .common⟩], 0) ∧
    updateQuestSpec [⟨1, none, "a", .pending, .common⟩] ⟨99, none, "b", .ongoing, .rare⟩
      = .error .notFound := ⟨rfl, rfl⟩

/-- C5 amended: `update_quest` on a quest whose id matches no row is a
silent no-op (zero rows affected, store unchanged, no error); on a quest
whose id matches a row it overwrites that row's chain_id, objective,
status and tier, reports one affected row, and leaves every other row
unchanged. -/
theorem update_quest_overwrites_matching_row (rows : Store) (quest : Quest) :
    ((∀ r ∈ rows, r.id ≠ quest.id) → updateQuest rows quest = (rows, 0)) ∧
    (uniqueIdsB rows = true → ∀ r ∈ rows, r.id = quest.id →
      updateQuest rows quest =
        (rows.map fun x =>
          if x = r then ⟨r.id, quest.chain_id, quest.objective, quest.status, quest.tier⟩
          else x,
         1)) := by
  constructor
  · intro hnone
    unfold updateQuest
    have hmap : (rows.map fun r =>
        if r.id == quest.id then
          (⟨r.id, quest.chain_id, quest.objective, quest.status, quest.tier⟩ : Quest)
        else r) = rows := by
      have hcongr : ∀ x ∈ rows,
          (if x.id == quest.id then
            (⟨x.id, quest.chain_id, quest.objective, quest.status, quest.tier⟩ : Quest)
          else x) = id x := by
        intro x hx
        have hfalse : (x.id == quest.id) = false := by
          simp only [beq_eq_false_iff_ne, ne_eq]
          exact hnone x hx
        simp [hfalse]
      rw [List.map_congr_left hcongr, List.map_id]
    have hfil : rows.filter (fun r => r.id == quest.id) = [] := by
      apply List.filter_eq_nil_iff.mpr
      intro x hx
      simpa using hnone x hx
    rw [hmap, hfil]
    rfl
  · intro hnd r hr hrid
    have hnd' : (rows.map Quest.id).Nodup := of_decide_eq_true hnd
    unfold updateQuest
    have hfil : rows.filter (fun x => x.id == quest.id) = [r] := by
      have h := filter_eq_id_singleton r rows hnd' hr
      rw [hrid] at h
      exact h
    have hmap : (rows.map fun x =>
        if x.id == quest.id then
          (⟨x.id, quest.chain_id, quest.objective, quest.status, quest.tier⟩ : Quest)
        else x) =
        rows.map fun x =>
          if x = r then
            (⟨r.id, quest.chain_id, quest.objective, quest.status, quest.tier⟩ : Quest)
          else x := by
      apply List.map_congr_left
      intro x hx
      by_cases hxr : x = r
      · subst hxr
        simp [hrid]
      · have hfalse : (x.id == quest.id) = false := by
          simp only [beq_eq_false_iff_ne, ne_eq]
          intro hxq
          exact hxr (nodup_ids_inj rows hnd' x r hx hr (by rw [hxq, ← hrid]))
        simp [hfalse, hxr]
    rw [hmap, hfil]
    rfl

/-- Witness for the C5 amendment: on the four-quest scenario, updating a
quest carrying the absent id 99 affects nothing, and updating quest 3's
row overwrites exactly that row. -/
theorem update_quest_overwrites_matching_row_witness :
    updateQuest scenarioQuests ⟨99, none, "b", .ongoing, .rare⟩ = (scenarioQuests, 0) ∧
    updateQuest scenarioQuests ⟨3, some 2, "Hone sword", .ongoing, .rare⟩ =
      (scenarioQuests.map fun x =>
        if x = ⟨3, some 2, "Sharpen sword", .pending, .common⟩ then
          ⟨3, some 2, "Hone sword", .ongoing, .rare⟩
        else x,
       1) := by
  constructor
  · exact (update_quest_overwrites_matching_row scenarioQuests _).1 (by decide)
  · exact (update_quest_overwrites_matching_row scenarioQuests
      ⟨3, some 2, "Hone sword", .ongoing, .rare⟩).2 (by decide)
      ⟨3, some 2, "Sharpen sword", .pending, .common⟩ (by decide) rfl

/-! ### C8: idempotent no-op transitions -/

/-- C8: for a quest present in the store, accept when it is already
ongoing, complete when it is already completed, and abandon when it is
already abandoned all leave every row unchanged, issue no confirmation
prompt, and report the action as a no-op rather than failing. -/
theorem already_transitions_are_noops (rows : Store) (qid : Int)
    (quest : Quest) (input : String) (h : getQuest rows qid = some quest) :
    (quest.status = .ongoing → acceptQuest rows qid = ⟨rows, .alreadyDone, false⟩) ∧
    (quest.status = .completed →
      completeQuest rows qid input = ⟨rows, .alreadyDone, false⟩) ∧
    (quest.status = .abandoned →
      abandonQuest rows qid input = ⟨rows, .alreadyDone, false⟩) := by
  refine ⟨?_, ?_, ?_⟩ <;> intro hst
  · unfold acceptQuest
    rw [h]
    simp [hst]
  · unfold completeQuest
    rw [h]
    simp [hst]
  · unfold abandonQuest
    rw [h]
    simp [hst]

/-- A three-status store for the C8 witness: an ongoing, a completed and
an abandoned quest. -/
def settledQuests : Store :=
  [⟨1, none, "a", .ongoing, .common⟩, ⟨2, none, "b", .completed, .rare⟩,
   ⟨3, none, "c", .abandoned, .epic⟩]

/-- Witness for C8: on `settledQuests`, accept on the ongoing quest 1,
complete on the completed quest 2 and abandon on the abandoned quest 3 are
promptless no-ops. -/
theorem already_transitions_are_noops_witness :
    acceptQuest settledQuests 1 = ⟨settledQuests, .alreadyDone, false⟩ ∧
    completeQuest settledQuests 2 "y" = ⟨settledQuests, .alreadyDone, false⟩ ∧
    abandonQuest settledQuests 3 "y" = ⟨settledQuests, .alreadyDone, false⟩ :=
  ⟨(already_transitions_are_noops settledQuests 1
      ⟨1, none, "a", .ongoing, .common⟩ "" rfl).1 rfl,
   (already_transitions_are_noops settledQuests 2
      ⟨2, none, "b", .completed, .rare⟩ "y" rfl).2.1 rfl,
   (already_transitions_are_noops settledQuests 3
      ⟨3, none, "c", .abandoned, .epic⟩ "y" rfl).2.2 rfl⟩

/-! ### C6: confirmation gates chain-wide actions -/

/-- C6: only input whose trimmed, lowercased form is `"y"` or `"yes"`
counts as confirmation, and on a quest that has at least one child
(`is_main_quest`), the abandon, complete and delete actions leave the
store untouched and report the action as skipped (`declined`, not an
error) whenever that confirmation is not given. -/
theorem confirmation_gates_chain_actions :
    (∀ input : String, confirmationWarning input = true ↔
      (normalizedInput input = "y".data ∨ normalizedInput input = "yes".data)) ∧
    ∀ rows qid input quest, getQuest rows qid = some quest →
      isMainQuest rows qid = true → confirmationWarning input = false →
      ((quest.status ≠ .abandoned →
          abandonQuest rows qid input = ⟨rows, .declined, true⟩) ∧
       (quest.status ≠ .completed →
          completeQuest rows qid input = ⟨rows, .declined, true⟩) ∧
       deleteQuest rows qid input = ⟨rows, .declined, true⟩) := by
  constructor
  · intro input
    simp [confirmationWarning]
  · intro rows qid input quest hget hmain hconf
    refine ⟨?_, ?_, ?_⟩
    · intro hst
      unfold abandonQuest
      rw [hget]
      simp [hst, hmain, hconf]
    · intro hst
      unfold completeQuest
      rw [hget]
      simp [hst, hmain, hconf]
    · unfold deleteQuest
      simp [hconf]

/-- Witness for C6: quest 1 of the four-quest scenario has children; with
the non-confirming input line `" N "` each of abandon, complete, delete
leaves the store untouched and reports `declined`. -/
theorem confirmation_gates_chain_actions_witness :
    confirmationWarning " YES " = true ∧
    abandonQuest scenarioQuests 1 " N " = ⟨scenarioQuests, .declined, true⟩ ∧
    completeQuest scenarioQuests 1 " N " = ⟨scenarioQuests, .declined, true⟩ ∧
    deleteQuest scenarioQuests 1 " N " = ⟨scenarioQuests, .declined, true⟩ := by
  have h := confirmation_gates_chain_actions.2 scenarioQuests 1 " N "
    ⟨1, none, "Defeat dragon", .pending, .common⟩ rfl (by decide) (by decide)
  exact ⟨(confirmation_gates_chain_actions.1 " YES ").mpr (Or.inr (by decide)),
    h.1 (by decide), h.2.1 (by decide), h.2.2⟩

/-! ### C10: accept never cascades -/

/-- C10: on a store with unique ids, accepting a present quest whose
status is not ongoing updates exactly that quest's row — setting only its
status to ongoing — leaves every other row (descendants included)
unchanged, issues no prompt, and reports success. -/
theorem accept_modifies_exactly_one_row (rows : Store) (qid : Int)
    (quest : Quest) (hnd : uniqueIdsB rows = true)
    (h : getQuest rows qid = some quest) (hst : quest.status ≠ .ongoing) :
    acceptQuest rows qid =
      ⟨rows.map fun r => if r.id = qid then { r with status := .ongoing } else r,
       .done, false⟩ := by
  have hnd' : (rows.map Quest.id).Nodup := of_decide_eq_true hnd
  have hqid : quest.id = qid := by
    have := List.find?_some h
    simpa using this
  have hmem : quest ∈ rows := List.mem_of_find?_eq_some h
  unfold acceptQuest
  rw [h]
  dsimp only
  rw [if_neg hst]
  unfold updateQuest
  dsimp only
  simp only [CliResult.mk.injEq, and_self, and_true]
  apply List.map_congr_left
  intro x hx
  by_cases hxq : x.id = qid
  · have hx_eq : x = quest :=
      nodup_ids_inj rows hnd' x quest hx hmem (by rw [hxq, hqid])
    subst hx_eq
    simp [hxq, hqid]
  · have hfalse : (x.id == quest.id) = false := by
      simp only [beq_eq_false_iff_ne, ne_eq, hqid]
      exact hxq
    simp [hfalse, hxq]

/-- Witness for C10: accepting the pending quest 2 of the four-quest
scenario flips exactly quest 2's status to ongoing. -/
theorem accept_modifies_exactly_one_row_witness :
    acceptQuest scenarioQuests 2 =
      ⟨scenarioQuests.map fun r =>
          if r.id = 2 then { r with status := .ongoing } else r,
       .done, false⟩ :=
  accept_modifies_exactly_one_row scenarioQuests 2
    ⟨2, some 1, "Find sword", .pending, .common⟩ (by decide) rfl (by decide)

/-! ### C3: the CTE matches exactly the chain rooted at the id

`ReachesFrom rows cid x` renders the spec's words "transitively reachable
via `chain_id` edges from `id`": `x` is the id of a quest whose chain of
`chain_id` edges leads back to `cid`. -/

/-- A quest id transitively reachable from `cid` via `chain_id` edges. -/
inductive ReachesFrom (rows : Store) (cid : Int) : Int → Prop where
  | child (q : Quest) (hq : q ∈ rows) (hc : q.chain_id = some cid) :
      ReachesFrom rows cid q.id
  | step (q : Quest) (p : Int) (hq : q ∈ rows) (hp : ReachesFrom rows cid p)
      (hc : q.chain_id = some p) : ReachesFrom rows cid q.id

theorem parent_lt_of_wf (rows : Store) (hwf : parentBeforeChildB rows = true)
    (q : Quest) (hq : q ∈ rows) (p : Int) (hc : q.chain_id = some p) :
    p < q.id := by
  have h := List.all_eq_true.mp hwf q hq
  rw [hc] at h
  exact of_decide_eq_true (Bool.and_elim_left h)

theorem mem_deleteCteIter_succ (rows : Store) (cid : Int) (n : Nat) (x : Int)
    (hx : x ∈ deleteCteIter rows cid n) : x ∈ deleteCteIter rows cid (n + 1) := by
  unfold deleteCteIter deleteCteStep
  exact List.mem_append_left _ hx

theorem mem_deleteCteIter_mono (rows : Store) (cid : Int) (m n : Nat)
    (hmn : m ≤ n) (x : Int) (hx : x ∈ deleteCteIter rows cid m) :
    x ∈ deleteCteIter rows cid n := by
  induction hmn with
  | refl => exact hx
  | step h ih => exact mem_deleteCteIter_succ rows cid _ x ih

theorem deleteCteIter_sound (rows : Store) (cid : Int) (n : Nat) :
    ∀ x : Int, x ∈ deleteCteIter rows cid n →
      (x = cid ∧ ∃ r ∈ rows, r.id = cid) ∨ ReachesFrom rows cid x := by
  induction n with
  | zero =>
      intro x hx
      have hx' : x ∈ deleteCteBase rows cid := hx
      unfold deleteCteBase at hx'
      rcases List.mem_map.mp hx' with ⟨q, hq, hqx⟩
      rcases List.mem_filter.mp hq with ⟨hqmem, hpred⟩
      rcases Bool.or_eq_true_iff.mp hpred with h | h
      · left
        refine ⟨?_, q, hqmem, beq_iff_eq.mp h⟩
        rw [← hqx]
        exact beq_iff_eq.mp h
      · right
        rw [← hqx]
        exact ReachesFrom.child q hqmem (by simpa using h)
  | succ n ih =>
      intro x hx
      have hx' : x ∈ deleteCteStep rows (deleteCteIter rows cid n) := hx
      unfold deleteCteStep at hx'
      rcases List.mem_append.mp hx' with h | h
      · exact ih x h
      · rcases List.mem_map.mp h with ⟨q, hq, hqx⟩
        rcases List.mem_filter.mp hq with ⟨hqmem, hpred⟩
        rcases hchain : q.chain_id with _ | p
        · rw [hchain] at hpred
          simp at hpred
        · rw [hchain] at hpred
          have hpmem : p ∈ deleteCteIter rows cid n := of_decide_eq_true hpred
          rcases ih p hpmem with ⟨hpcid, hpresent⟩ | hreach
          · right
            rw [← hqx]
            refine ReachesFrom.child q hqmem ?_
            rw [hchain, hpcid]
          · right
            rw [← hqx]
            exact ReachesFrom.step q p hqmem hreach hchain

theorem deleteCteIter_step_mem (rows : Store) (cid : Int) (n : Nat)
    (q : Quest) (hq : q ∈ rows) (p : Int) (hc : q.chain_id = some p)
    (hp : p ∈ deleteCteIter rows cid n) :
    q.id ∈ deleteCteIter rows cid (n + 1) := by
  unfold deleteCteIter deleteCteStep
  apply List.mem_append_right
  apply List.mem_map_of_mem Quest.id
  apply List.mem_filter.mpr
  refine ⟨hq, ?_⟩
  rw [hc]
  exact decide_eq_true hp

theorem filter_length_le_of_imp {α : Type} (P Q : α → Bool) :
    ∀ l : List α, (∀ a ∈ l, P a = true → Q a = true) →
      (l.filter P).length ≤ (l.filter Q).length := by
  intro l
  induction l with
  | nil => intro _; simp
  | cons a t ih =>
      intro himp
      have ih' := ih fun b hb => himp b (List.mem_cons_of_mem a hb)
      by_cases hPa : P a = true
      · have hQa : Q a = true := himp a (List.mem_cons_self a t) hPa
        simp only [List.filter_cons, if_pos hPa, if_pos hQa, List.length_cons]
        omega
      · simp only [List.filter_cons, if_neg hPa]
        by_cases hQa : Q a = true
        · simp only [if_pos hQa, List.length_cons]
          omega
        · simp only [if_neg hQa]
          omega

theorem filter_length_lt_of_witness {α : Type} (P Q : α → Bool) :
    ∀ l : List α, (∀ a ∈ l, P a = true → Q a = true) →
      ∀ x ∈ l, Q x = true → P x = false →
      (l.filter P).length < (l.filter Q).length := by
  intro l
  induction l with
  | nil => intro _ x hx; cases hx
  | cons a t ih =>
      intro himp x hx hQx hPx
      have himp' : ∀ b ∈ t, P b = true → Q b = true :=
        fun b hb => himp b (List.mem_cons_of_mem a hb)
      rcases List.mem_cons.mp hx with h | h
      · subst h
        have hPx' : ¬ (P x = true) := by simp [hPx]
        have hle := filter_length_le_of_imp P Q t himp'
        simp only [List.filter_cons, if_neg hPx', if_pos hQx, List.length_cons]
        omega
      · have ih' := ih himp' x h hQx hPx
        by_cases hPa : P a = true
        · have hQa : Q a = true := himp a (List.mem_cons_self a t) hPa
          simp only [List.filter_cons, if_pos hPa, if_pos hQa, List.length_cons]
          omega
        · simp only [List.filter_cons, if_neg hPa]
          by_cases hQa : Q a = true
          · simp only [if_pos hQa, List.length_cons]
            omega
          · simp only [if_neg hQa]
            omega

theorem deleteCteIter_complete (rows : Store) (cid : Int)
    (hwf : parentBeforeChildB rows = true) (x : Int)
    (hx : ReachesFrom rows cid x) :
    ∃ n, x ∈ deleteCteIter rows cid n ∧
      n + 1 ≤ (rows.filter fun r => decide (r.id ≤ x)).length := by
  induction hx with
  | child q hq hc =>
      refine ⟨0, ?_, ?_⟩
      · apply List.mem_map_of_mem Quest.id
        apply List.mem_filter.mpr
        refine ⟨hq, ?_⟩
        rw [hc]
        simp
      · have : q ∈ rows.filter fun r => decide (r.id ≤ q.id) := by
          apply List.mem_filter.mpr
          exact ⟨hq, by simp⟩
        exact List.length_pos.mpr (List.ne_nil_of_mem this)
  | step q p hq hp hc ih =>
      rcases ih with ⟨n, hmem, hcount⟩
      have hlt : p < q.id := parent_lt_of_wf rows hwf q hq p hc
      refine ⟨n + 1, deleteCteIter_step_mem rows cid n q hq p hc hmem, ?_⟩
      have hstrict : (rows.filter fun r => decide (r.id ≤ p)).length <
          (rows.filter fun r => decide (r.id ≤ q.id)).length := by
        apply filter_length_lt_of_witness _ _ rows ?_ q hq (by simp) ?_
        · intro a _ ha
          have := of_decide_eq_true ha
          exact decide_eq_true (le_trans this (le_of_lt hlt))
        · exact decide_eq_false (not_le.mpr hlt)
      omega

/-- Membership in the id set of `delete_chain`'s CTE is exactly: the id of
a present row equal to the argument, or transitive reachability from the
argument. -/
theorem mem_deleteChainIds_iff (rows : Store) (cid : Int)
    (hwf : parentBeforeChildB rows = true) (x : Int) :
    x ∈ deleteChainIds rows cid ↔
      ((x = cid ∧ ∃ r ∈ rows, r.id = cid) ∨ ReachesFrom rows cid x) := by
  constructor
  · exact deleteCteIter_sound rows cid rows.length x
  · rintro (⟨hxc, r, hr, hrid⟩ | hreach)
    · subst hxc
      apply mem_deleteCteIter_mono rows x 0 rows.length (Nat.zero_le _)
      have : r.id ∈ deleteCteBase rows x := by
        apply List.mem_map_of_mem Quest.id
        apply List.mem_filter.mpr
        exact ⟨hr, by simp [hrid]⟩
      rwa [hrid] at this
    · rcases deleteCteIter_complete rows cid hwf x hreach with ⟨n, hmem, hcount⟩
      have hle : (rows.filter fun r => decide (r.id ≤ x)).length ≤ rows.length :=
        List.length_filter_le _ _
      exact mem_deleteCteIter_mono rows cid n rows.length (by omega) x hmem

/-- Every reachability derivation bottoms out at a row whose `chain_id` is
the starting id. -/
theorem reaches_child_exists (rows : Store) (cid : Int) (x : Int)
    (hx : ReachesFrom rows cid x) : ∃ q ∈ rows, q.chain_id = some cid := by
  induction hx with
  | child q hq hc => exact ⟨q, hq, hc⟩
  | step q p hq hp hc ih => exact ih

/-- C3: `delete_chain(id)` removes exactly the quest with that id together
with every quest transitively reachable from it via `chain_id` edges, and
no other quest; when no quest has the id and no quest references it, the
store is unchanged (zero rows affected, no error raised); and on the
four-quest scenario, deleting quest 1 removes ids 1-4 and empties the
store. -/
theorem delete_chain_removes_exactly_subtree :
    (∀ (rows : Store) (cid : Int), parentBeforeChildB rows = true →
      ((∀ x : Int, x ∈ deleteRemovedIds rows cid ↔
          ∃ q ∈ rows, q.id = x ∧ (x = cid ∨ ReachesFrom rows cid x)) ∧
       ((∀ q ∈ rows, q.id ≠ cid ∧ q.chain_id ≠ some cid) →
          deleteChain rows cid = rows))) ∧
    deleteChain scenarioQuests 1 = [] := by
  constructor
  · intro rows cid hwf
    constructor
    · intro x
      constructor
      · intro hx
        unfold deleteRemovedIds at hx
        rcases List.mem_map.mp hx with ⟨q, hq, hqx⟩
        rcases List.mem_filter.mp hq with ⟨hqmem, hpred⟩
        have hmemids : q.id ∈ deleteChainIds rows cid := of_decide_eq_true hpred
        refine ⟨q, hqmem, hqx, ?_⟩
        rcases (mem_deleteChainIds_iff rows cid hwf q.id).mp hmemids with ⟨h1, _⟩ | h2
        · left
          rw [← hqx]
          exact h1
        · right
          rw [← hqx]
          exact h2
      · rintro ⟨q, hqmem, hqx, hcase⟩
        subst hqx
        unfold deleteRemovedIds
        apply List.mem_map_of_mem Quest.id
        apply List.mem_filter.mpr
        refine ⟨hqmem, decide_eq_true ?_⟩
        apply (mem_deleteChainIds_iff rows cid hwf q.id).mpr
        rcases hcase with h | h
        · exact Or.inl ⟨h, q, hqmem, h⟩
        · exact Or.inr h
    · intro hnone
      unfold deleteChain
      apply List.filter_eq_self.mpr
      intro q hqmem
      have hnot : q.id ∉ deleteChainIds rows cid := by
        intro hmem
        rcases (mem_deleteChainIds_iff rows cid hwf q.id).mp hmem with ⟨h1, _⟩ | h2
        · exact (hnone q hqmem).1 h1
        · rcases reaches_child_exists rows cid q.id h2 with ⟨r, hr, hrc⟩
          exact (hnone r hr).2 hrc
      rw [decide_eq_false hnot]
      rfl
  · decide

/-- Witness for C3: the four-quest scenario satisfies the
parent-before-child invariant, and id 3 (a grandchild of quest 1) is among
the ids `delete_chain 1` removes. -/
theorem delete_chain_removes_exactly_subtree_witness :
    parentBeforeChildB scenarioQuests = true ∧
    3 ∈ deleteRemovedIds scenarioQuests 1 := by
  refine ⟨by decide, ?_⟩
  apply ((delete_chain_removes_exactly_subtree.1 scenarioQuests 1 (by decide)).1 3).mpr
  refine ⟨⟨3, some 2, "Sharpen sword", .pending, .common⟩, by decide, rfl, Or.inr ?_⟩
  exact ReachesFrom.step ⟨3, some 2, "Sharpen sword", .pending, .common⟩ 2 (by decide)
    (ReachesFrom.child ⟨2, some 1, "Find sword", .pending, .common⟩ (by decide) rfl) rfl

/-! ### The forest reconstructor (`get_all_chains`, src/quest.rs)

`struct Chain` holds one quest and its ordered child chains.  The build
phase inserts a singleton chain per quest into a lookup keyed by id and
pushes a snapshot clone into its parent's child list; the reconciliation
phase (`connect`) replaces every snapshot child's chain list with the
authoritative list still held in the lookup.  The `HashMap` is modelled as
an association list (only keyed insert, in-place modify and remove are
used, so the hash order is immaterial).  Rust's `connect` recursion
terminates because every removal shrinks the lookup; here it carries fuel,
decremented once per depth level, and the callers pass fuel exceeding any
possible chain depth, so the zero-fuel branch is never reached on stores
satisfying the invariant. -/

/-- `struct Chain` (src/quest.rs): one quest plus its child chains. -/
structure Chain where
  main : Quest
  chains : List Chain
deriving Repr

/-- The `disjoint_chains` lookup of `get_all_chains`. -/
abbrev ChainMap := List (Int × Chain)

/-- `HashMap::insert`: replace the binding when the key is present, append
it otherwise. -/
def mapInsert (m : ChainMap) (k : Int) (c : Chain) : ChainMap :=
  match m with
  | [] => [(k, c)]
  | e :: rest => if e.1 = k then (k, c) :: rest else e :: mapInsert rest k c

/-- `HashMap::get_mut` followed by an in-place mutation: apply `f` to the
chain bound to `k`.  The Rust code unwraps the lookup; under the
parent-before-child invariant the key is always present, so the
absent-key case (a no-op here, a panic there) is unreachable. -/
def mapModify (m : ChainMap) (k : Int) (f : Chain → Chain) : ChainMap :=
  match m with
  | [] => []
  | e :: rest => if e.1 = k then (e.1, f e.2) :: rest else e :: mapModify rest k f

/-- `HashMap::remove`: the removed binding, if any, and the rest of the
map. -/
def mapRemove (m : ChainMap) (k : Int) : Option Chain × ChainMap :=
  match m with
  | [] => (none, [])
  | e :: rest =>
      if e.1 = k then (some e.2, rest)
      else
        let r := mapRemove rest k
        (r.1, e :: r.2)

/-- One iteration of the build loop of `get_all_chains` (src/quest.rs,
lines 175-188): insert a singleton chain for the quest into the lookup;
when `chain_id` is present push a snapshot clone onto the parent's child
list, otherwise record a root id. -/
def buildStep (acc : ChainMap × List Int) (quest : Quest) : ChainMap × List Int :=
  let chain : Chain := ⟨quest, []⟩
  let m := mapInsert acc.1 quest.id chain
  match quest.chain_id with
  | some cid =>
      (mapModify m cid (fun pc => ⟨pc.main, pc.chains ++ [chain]⟩), acc.2)
  | none => (m, acc.2 ++ [quest.id])

/-- The build phase of `get_all_chains` (src/quest.rs, lines 172-188):
the build loop over the id-ordered quests, from an empty lookup and root
list. -/
def buildPhase (qs : List Quest) : ChainMap × List Int :=
  qs.foldl buildStep ([], [])

/-- `QuestDao::connect` (src/quest.rs, lines 325-334): if the chain has no
children return; otherwise, for each child in order, replace its chain
list with the one removed from the lookup under the child's id (the Rust
code unwraps that removal — present under the invariant; the stale
snapshot is kept otherwise) and recurse into the updated child. -/
def connectGo : Nat → Chain → ChainMap → Chain × ChainMap
  | 0, chain, m => (chain, m)
  | fuel + 1, chain, m =>
      if chain.chains.isEmpty then (chain, m)
      else
        let r := chain.chains.foldl
          (fun (acc : List Chain × ChainMap) child =>
            let rm := mapRemove acc.2 child.main.id
            let child1 : Chain := ⟨child.main, ((rm.1).map Chain.chains).getD child.chains⟩
            let rc := connectGo fuel child1 rm.2
            (acc.1 ++ [rc.1], rc.2))
          ([], m)
        (⟨chain.main, r.1⟩, r.2)

/-- Stand-in for the unreachable `unwrap` failure on a root id: every root
id was inserted during the build phase and is never consumed earlier. -/
def defaultChain : Chain := ⟨⟨0, none, "", .pending, .common⟩, []⟩

/-- `QuestDao::get_all_chains` (src/quest.rs, lines 164-200): build phase
over the id-ordered quest list, then, root by root, remove the root from
the lookup, reconcile it through `connect`, and collect the results. -/
def getAllChains (rows : Store) : List Chain :=
  let qs := getAllQuests rows
  let bp := buildPhase qs
  (bp.2.foldl
    (fun (acc : List Chain × ChainMap) rootId =>
      let rm := mapRemove acc.2 rootId
      let rootChain := rm.1.getD defaultChain
      let rc := connectGo (qs.length + 1) rootChain rm.2
      (acc.1 ++ [rc.1], rc.2))
    ([], bp.1)).1

/-! ### The tree renderer (src/cli.rs, `populate_table` and `show_quests`)

Rows are modelled as their four cell texts (`Cell::from` stringises the
id, status and tier; color decoration is out of scope).  `populate_table`
threads the `is_depth_nested` vector and the accumulated rows; fuel is
decremented once per depth level and chosen by the caller to exceed any
chain depth. -/

/-- The renderer state: the `is_depth_nested` vector and the table rows
accumulated so far. -/
structure RenderState where
  nested : List Bool
  rows : List (List String)
deriving Repr

/-- `Cli::populate_table` (src/cli.rs, lines 307-363): build the connector
from the first `depth` slots of `is_depth_nested` (`"│   "` for a nested
slot, `"    "` otherwise) followed by `"└── "` for a terminal chain and
`"├── "` otherwise; append the row; update slot `depth` to `!is_terminal`
(pushing when the vector is short); recurse into the children, the last
one terminal; finally reset slot `depth` to `false`. -/
def populateTable : Nat → Chain → Nat → Bool → RenderState → RenderState
  | 0, _, _, _, st => st
  | fuel + 1, chain, depth, isTerminal, st =>
      let pfx := String.join ((st.nested.take depth).map
          fun b => if b then "│   " else "    ") ++
        (if isTerminal then "└── " else "├── ")
      let row := [toString chain.main.id, pfx ++ chain.main.objective,
                  chain.main.status.display, chain.main.tier.display]
      let st1 : RenderState :=
        if depth < st.nested.length then
          ⟨st.nested.set depth (!isTerminal), st.rows ++ [row]⟩
        else ⟨st.nested ++ [!isTerminal], st.rows ++ [row]⟩
      let lastIdx := chain.chains.length - 1
      let st2 := chain.chains.enum.foldl
        (fun acc ic => populateTable fuel ic.2 (depth + 1) (ic.1 == lastIdx) acc)
        st1
      if depth < st2.nested.length then ⟨st2.nested.set depth false, st2.rows⟩
      else st2

/-- `Cli::show_quests` (src/cli.rs, lines 366-405): one row per root chain
with the bare objective, then `populate_table` over the root's children at
depth 0, each call with a fresh `is_depth_nested` vector, the last child
terminal. -/
def showQuestsRows (rows : Store) : List (List String) :=
  let chains := getAllChains rows
  chains.foldl
    (fun acc chain =>
      let acc1 := acc ++ [[toString chain.main.id, chain.main.objective,
                           chain.main.status.display, chain.main.tier.display]]
      chain.chains.enum.foldl
        (fun acc2 ic =>
          (populateTable (rows.length + 1) ic.2 0
            (ic.1 == chain.chains.length - 1) ⟨[], acc2⟩).rows)
        acc1)
    []

/-- C7: on the four-quest forest (1 "Defeat dragon" root; 2 "Find sword"
child of 1; 3 "Sharpen sword" child of 2; 4 "Train stamina" child of 1),
the rendered Objective column is exactly the four lines
"Defeat dragon", "├── Find sword", "│   └── Sharpen sword",
"└── Train stamina": the root row has no connector, and each non-root
row's connector is, per ancestor level, "│   " when that ancestor still
has pending siblings and "    " otherwise, closed by "└── " for a last
child and "├── " otherwise. -/
theorem renderer_connectors_scenario :
    (showQuestsRows scenarioQuests).map (fun r => r.getD 1 "") =
      ["Defeat dragon", "├── Find sword", "│   └── Sharpen sword",
       "└── Train stamina"] := by
  decide

/-! ### C1: correctness of the forest reconstruction

Plan: the build phase turns the id-ordered quest list `qs` into the lookup
`mapOf qs` — one entry per quest, holding the quest and singleton
snapshots of its children — plus the root ids in order.  `connect` then
turns each root entry into the ideal tree `trueTree` while consuming
exactly the entries of the root's descendants.  The pre-order flattening
of the resulting forest is a permutation of `qs`, and every parent/child
edge mirrors `chain_id`. -/

/-- The quests whose `chain_id` references `pid` (in store order). -/
def childrenOf (qs : List Quest) (pid : Int) : List Quest :=
  qs.filter fun q => q.chain_id == some pid

/-- The ideal tree rooted at `q`: its children are the trees of the quests
referencing `q`, recursively.  Fuel bounds the depth; callers pass fuel
exceeding the depth of any chain over `qs`. -/
def trueTree (qs : List Quest) : Nat → Quest → Chain
  | 0, q => ⟨q, []⟩
  | fuel + 1, q => ⟨q, (childrenOf qs q.id).map (trueTree qs fuel)⟩

/-- Pre-order flattening of a chain (node before its children). -/
def preorderF : Nat → Chain → List Quest
  | 0, _ => []
  | fuel + 1, c => c.main :: (c.chains.map (preorderF fuel)).flatten

/-- Pre-order flattening of a forest. -/
def forestQuests (fuel : Nat) (cs : List Chain) : List Quest :=
  (cs.map (preorderF fuel)).flatten

/-- Every child chain's quest references its parent chain's quest,
throughout the tree. -/
def edgeOkF : Nat → Chain → Bool
  | 0, _ => false
  | fuel + 1, c =>
      c.chains.all fun c2 => (c2.main.chain_id == some c.main.id) && edgeOkF fuel c2

/-- The content of the lookup after the build phase: each quest bound to
its id, carrying singleton snapshots of its children. -/
def entryOf (qs : List Quest) (r : Quest) : Int × Chain :=
  (r.id, ⟨r, (childrenOf qs r.id).map (fun c => ⟨c, []⟩)⟩)

/-- The lookup after the build phase. -/
def mapOf (qs : List Quest) : ChainMap :=
  qs.map (entryOf qs)

/-- The root ids recorded by the build phase, in order. -/
def rootsOf (qs : List Quest) : List Int :=
  (qs.filter fun r => r.chain_id == none).map Quest.id

/-! #### Basic consequences of the store invariants -/

theorem asc_pairwise : ∀ qs : Store, ascendingIdsB qs = true →
    List.Pairwise (fun a b : Quest => a.id < b.id) qs := by
  intro qs
  induction qs with
  | nil => intro _; exact List.Pairwise.nil
  | cons q rest ih =>
      intro h
      cases rest with
      | nil => simp
      | cons r rest2 =>
          unfold ascendingIdsB at h
          have h1 : q.id < r.id := of_decide_eq_true (Bool.and_elim_left h)
          have h2 : ascendingIdsB (r :: rest2) = true := Bool.and_elim_right h
          have hp := ih h2
          apply List.pairwise_cons.mpr
          refine ⟨?_, hp⟩
          intro b hb
          rcases List.mem_cons.mp hb with hb | hb
          · rw [hb]
            exact h1
          · have h3 : r.id < b.id := List.rel_of_pairwise_cons hp hb
            omega

theorem ids_nodup_of_asc (qs : Store) (hasc : ascendingIdsB qs = true) :
    (qs.map Quest.id).Nodup := by
  have h2 : List.Pairwise (fun a b : Int => a < b) (qs.map Quest.id) :=
    (List.pairwise_map).mpr (asc_pairwise qs hasc)
  exact h2.imp fun hlt => ne_of_lt hlt

theorem rows_nodup_of_asc (qs : Store) (hasc : ascendingIdsB qs = true) :
    qs.Nodup :=
  (asc_pairwise qs hasc).imp fun hlt => by
    intro heq
    rw [heq] at hlt
    exact lt_irrefl _ hlt

/-- The unique row carrying a given id. -/
theorem row_eq_of_id_eq (qs : Store) (hasc : ascendingIdsB qs = true)
    (q r : Quest) (hq : q ∈ qs) (hr : r ∈ qs) (hid : q.id = r.id) : q = r :=
  nodup_ids_inj qs (ids_nodup_of_asc qs hasc) q r hq hr hid

theorem parent_mem_of_wf (qs : Store) (hwf : parentBeforeChildB qs = true)
    (q : Quest) (hq : q ∈ qs) (p : Int) (hc : q.chain_id = some p) :
    ∃ r ∈ qs, r.id = p := by
  have h := List.all_eq_true.mp hwf q hq
  rw [hc] at h
  rcases List.any_eq_true.mp (Bool.and_elim_right h) with ⟨r, hr, hrd⟩
  exact ⟨r, hr, of_decide_eq_true hrd⟩

/-! #### Facts about `ReachesFrom` on well-formed stores -/

/-- Ids strictly grow along `chain_id`-reachability. -/
theorem reaches_lt (qs : Store) (hwf : parentBeforeChildB qs = true)
    (a x : Int) (h : ReachesFrom qs a x) : a < x := by
  induction h with
  | child q hq hc => exact parent_lt_of_wf qs hwf q hq a hc
  | step q p hq hp hc ih =>
      have := parent_lt_of_wf qs hwf q hq p hc
      omega

/-- Reachability composes across an intermediate quest. -/
theorem reaches_trans (qs : Store) (a b x : Int)
    (hab : ReachesFrom qs a b) (hbx : ReachesFrom qs b x) :
    ReachesFrom qs a x := by
  induction hbx with
  | child q hq hc => exact ReachesFrom.step q b hq hab hc
  | step q p hq hp hc ih => exact ReachesFrom.step q p hq ih hc

/-- The target of a reachability derivation carries a `chain_id`. -/
theorem reaches_target_has_parent (qs : Store) (a x : Int)
    (h : ReachesFrom qs a x) :
    ∃ q ∈ qs, q.id = x ∧ ∃ p, q.chain_id = some p := by
  cases h with
  | child q hq hc => exact ⟨q, hq, rfl, a, hc⟩
  | step q p hq hp hc => exact ⟨q, hq, rfl, p, hc⟩

/-- Inverting the last step of a derivation at the unique row carrying the
target id. -/
theorem reaches_inversion (qs : Store) (hasc : ascendingIdsB qs = true)
    (a x : Int) (h : ReachesFrom qs a x) (c : Quest) (hc : c ∈ qs)
    (hcx : c.id = x) :
    c.chain_id = some a ∨ ∃ p, c.chain_id = some p ∧ ReachesFrom qs a p := by
  cases h with
  | child q hq hqc =>
      have : c = q := row_eq_of_id_eq qs hasc c q hc hq hcx
      rw [this]
      exact Or.inl hqc
  | step q p hq hp hqc =>
      have : c = q := row_eq_of_id_eq qs hasc c q hc hq hcx
      rw [this]
      exact Or.inr ⟨p, hqc, hp⟩

/-- The tree property: two sources reaching a common id are related. -/
theorem reaches_both (qs : Store) (hasc : ascendingIdsB qs = true)
    (a x : Int) (h1 : ReachesFrom qs a x) :
    ∀ b : Int, ReachesFrom qs b x →
      a = b ∨ ReachesFrom qs a b ∨ ReachesFrom qs b a := by
  induction h1 with
  | child q hq hc =>
      intro b h2
      rcases reaches_inversion qs hasc b q.id h2 q hq rfl with h | ⟨p, hp, hbp⟩
      · rw [hc] at h
        exact Or.inl (Option.some.inj h)
      · rw [hc] at hp
        have : p = a := (Option.some.inj hp).symm
        rw [this] at hbp
        exact Or.inr (Or.inr hbp)
  | step q p hq hp hc ih =>
      intro b h2
      rcases reaches_inversion qs hasc b q.id h2 q hq rfl with h | ⟨p2, hp2, hbp2⟩
      · rw [hc] at h
        have hpb : p = b := Option.some.inj h
        rw [hpb] at hp
        exact Or.inr (Or.inl hp)
      · rw [hc] at hp2
        have hpp : p = p2 := Option.some.inj hp2
        rw [← hpp] at hbp2
        exact ih b hbp2

/-- Decomposing reachability at the first edge: the target is, or is
reached through, a direct child of the source. -/
theorem reaches_decomp (qs : Store) (a x : Int) (h : ReachesFrom qs a x) :
    ∃ c ∈ qs, c.chain_id = some a ∧ (c.id = x ∨ ReachesFrom qs c.id x) := by
  induction h with
  | child q hq hc => exact ⟨q, hq, hc, Or.inl rfl⟩
  | step q p hq hp hc ih =>
      rcases ih with ⟨c, hcmem, hcc, hcase⟩
      refine ⟨c, hcmem, hcc, Or.inr ?_⟩
      rcases hcase with h | h
      · rw [← h] at hc
        exact ReachesFrom.child q hq hc
      · exact ReachesFrom.step q p hq h hc

/-! #### Association-list lemmas for the lookup -/

theorem mapInsert_fresh (k : Int) (c : Chain) :
    ∀ m : ChainMap, (∀ e ∈ m, e.1 ≠ k) → mapInsert m k c = m ++ [(k, c)] := by
  intro m
  induction m with
  | nil => intro _; rfl
  | cons e rest ih =>
      intro h
      unfold mapInsert
      rw [if_neg (h e (List.mem_cons_self e rest))]
      rw [ih fun e2 he2 => h e2 (List.mem_cons_of_mem e he2)]
      rfl

theorem mapModify_map (g : Quest → Chain) (k : Int) (f : Chain → Chain) :
    ∀ X : List Quest, (X.map Quest.id).Nodup →
      mapModify (X.map fun r => (r.id, g r)) k f =
        X.map fun r => if r.id = k then (r.id, f (g r)) else (r.id, g r) := by
  intro X
  induction X with
  | nil => intro _; rfl
  | cons r rest ih =>
      intro hnd
      rw [List.map_cons, List.nodup_cons] at hnd
      simp only [List.map_cons]
      unfold mapModify
      by_cases hrk : r.id = k
      · rw [if_pos hrk, if_pos hrk]
        have htail : (rest.map fun x => if x.id = k then (x.id, f (g x)) else (x.id, g x)) =
            rest.map fun x => (x.id, g x) := by
          apply List.map_congr_left
          intro x hx
          have hxk : ¬ x.id = k := by
            intro hxk
            exact hnd.1 (by
              have := List.mem_map_of_mem Quest.id hx
              rwa [hxk, ← hrk] at this)
          rw [if_neg hxk]
        rw [htail]
      · rw [if_neg hrk, if_neg hrk]
        rw [ih hnd.2]

theorem mapRemove_map (g : Quest → Chain) (k : Int) :
    ∀ X : List Quest,
      mapRemove (X.map fun r => (r.id, g r)) k =
        ((X.find? fun r => r.id == k).map g,
         (X.eraseP fun r => r.id == k).map fun r => (r.id, g r)) := by
  intro X
  induction X with
  | nil => rfl
  | cons r rest ih =>
      simp only [List.map_cons]
      unfold mapRemove
      by_cases hrk : r.id = k
      · rw [if_pos hrk]
        rw [List.find?_cons_of_pos _ (by simp [hrk]),
          List.eraseP_cons_of_pos (by simp [hrk])]
        simp
      · rw [if_neg hrk]
        rw [List.find?_cons_of_neg _ (by simp [hrk]),
          List.eraseP_cons_of_neg (by simp [hrk])]
        rw [ih]
        rfl

theorem find?_id_unique (c : Quest) :
    ∀ X : List Quest, c ∈ X → (∀ x ∈ X, x.id = c.id → x = c) →
      X.find? (fun r => r.id == c.id) = some c := by
  intro X
  induction X with
  | nil => intro hc; cases hc
  | cons r rest ih =>
      intro hc huniq
      by_cases hrk : r.id = c.id
      · have hrc : r = c := huniq r (List.mem_cons_self r rest) hrk
        rw [List.find?_cons_of_pos _ (by simp [hrk]), hrc]
      · rw [List.find?_cons_of_neg _ (by simp [hrk])]
        rcases List.mem_cons.mp hc with h | h
        · rw [h] at hrk
          exact absurd rfl hrk
        · exact ih h fun x hx => huniq x (List.mem_cons_of_mem r hx)

theorem eraseP_id_eq_erase (c : Quest) :
    ∀ X : List Quest, (∀ x ∈ X, x.id = c.id → x = c) →
      X.eraseP (fun r => r.id == c.id) = X.erase c := by
  intro X
  induction X with
  | nil => intro _; rfl
  | cons r rest ih =>
      intro huniq
      by_cases hrk : r.id = c.id
      · have hrc : r = c := huniq r (List.mem_cons_self r rest) hrk
        rw [List.eraseP_cons_of_pos (by simp [hrk]), hrc, List.erase_cons_head]
      · have hrc : r ≠ c := by
          intro h
          rw [h] at hrk
          exact hrk rfl
        rw [List.eraseP_cons_of_neg (by simp [hrk])]
        rw [List.erase_cons_tail]
        · rw [ih fun x hx => huniq x (List.mem_cons_of_mem r hx)]
        · simp [hrc]

/-! #### Correctness of the build phase -/

theorem childrenOf_append_one (X : List Quest) (q : Quest) (pid : Int) :
    childrenOf (X ++ [q]) pid =
      childrenOf X pid ++ if q.chain_id == some pid then [q] else [] := by
  unfold childrenOf
  rw [List.filter_append, List.filter_cons, List.filter_nil]

theorem rootsOf_append_root (X : List Quest) (q : Quest)
    (h : q.chain_id = none) : rootsOf (X ++ [q]) = rootsOf X ++ [q.id] := by
  unfold rootsOf
  rw [List.filter_append, List.filter_cons, List.filter_nil]
  rw [if_pos (by simp [h])]
  rw [List.map_append]
  rfl

theorem rootsOf_append_nonroot (X : List Quest) (q : Quest) (cid : Int)
    (h : q.chain_id = some cid) : rootsOf (X ++ [q]) = rootsOf X := by
  unfold rootsOf
  rw [List.filter_append, List.filter_cons, List.filter_nil]
  rw [if_neg (by simp [h])]
  simp

theorem buildStep_correct (qs : Store) (hasc : ascendingIdsB qs = true)
    (hwf : parentBeforeChildB qs = true) (P : List Quest) (q : Quest)
    (rest : List Quest) (hP : qs = P ++ q :: rest) :
    buildStep (mapOf P, rootsOf P) q = (mapOf (P ++ [q]), rootsOf (P ++ [q])) := by
  have hqmem : q ∈ qs := by
    rw [hP]
    exact List.mem_append_right P (List.mem_cons_self q rest)
  have hpw := asc_pairwise qs hasc
  rw [hP] at hpw
  have hcross := (List.pairwise_append.mp hpw).2.2
  have hp_lt : ∀ r ∈ P, r.id < q.id := fun r hr =>
    hcross r hr q (List.mem_cons_self q rest)
  have hsub1 : List.Sublist (P ++ [q]) qs := by
    rw [hP]
    exact List.Sublist.append_left
      (List.cons_sublist_cons.mpr (List.nil_sublist rest)) P
  have hnd1 : ((P ++ [q]).map Quest.id).Nodup :=
    (ids_nodup_of_asc qs hasc).sublist (hsub1.map Quest.id)
  have hchildP_q : childrenOf P q.id = [] := by
    apply List.filter_eq_nil_iff.mpr
    intro r hr hrc'
    have hrc : r.chain_id = some q.id := by simpa using hrc'
    have hmem : r ∈ qs := by
      rw [hP]
      exact List.mem_append_left _ hr
    have := parent_lt_of_wf qs hwf r hmem q.id hrc
    have := hp_lt r hr
    omega
  have hq_not_self : ∀ pid : Int, q.chain_id = some pid → pid ≠ q.id := by
    intro pid hpid heq
    have := parent_lt_of_wf qs hwf q hqmem pid hpid
    omega
  have hfresh : ∀ e ∈ mapOf P, e.1 ≠ q.id := by
    intro e he
    rcases List.mem_map.mp he with ⟨r, hr, hre⟩
    rw [← hre]
    have := hp_lt r hr
    simp only [entryOf]
    omega
  have hm1 : mapInsert (mapOf P) q.id ⟨q, []⟩ =
      (P ++ [q]).map fun r => (r.id, (⟨r, (childrenOf P r.id).map fun c => ⟨c, []⟩⟩ : Chain)) := by
    rw [mapInsert_fresh q.id ⟨q, []⟩ (mapOf P) hfresh]
    rw [List.map_append]
    congr 1
    simp only [List.map_cons, List.map_nil, hchildP_q]
  rcases hchain : q.chain_id with _ | cid
  · -- root quest
    unfold buildStep
    rw [hchain]
    simp only [hm1]
    rw [rootsOf_append_root P q hchain]
    simp only [Prod.mk.injEq]
    refine ⟨?_, trivial⟩
    unfold mapOf
    apply List.map_congr_left
    intro x hx
    unfold entryOf
    rw [childrenOf_append_one P q x.id]
    rw [if_neg (by simp [hchain])]
    rw [List.append_nil]
  · -- child quest: the parent entry gains a snapshot
    have hcid_lt : cid < q.id := parent_lt_of_wf qs hwf q hqmem cid hchain
    unfold buildStep
    rw [hchain]
    simp only [hm1]
    rw [rootsOf_append_nonroot P q cid hchain]
    simp only [Prod.mk.injEq, and_true]
    rw [mapModify_map _ cid _ (P ++ [q]) hnd1]
    unfold mapOf
    apply List.map_congr_left
    intro x hx
    unfold entryOf
    by_cases hxc : x.id = cid
    · rw [if_pos hxc]
      rw [childrenOf_append_one P q x.id]
      rw [if_pos (by simp [hchain, hxc])]
      simp
    · rw [if_neg hxc]
      rw [childrenOf_append_one P q x.id]
      rw [if_neg (by
        intro hcontra
        have hcx : cid = x.id := by simpa [hchain] using hcontra
        exact hxc hcx.symm)]
      rw [List.append_nil]

theorem buildPhase_go (qs : Store) (hasc : ascendingIdsB qs = true)
    (hwf : parentBeforeChildB qs = true) :
    ∀ (suffix P : List Quest), qs = P ++ suffix →
      List.foldl buildStep (mapOf P, rootsOf P) suffix = (mapOf qs, rootsOf qs) := by
  intro suffix
  induction suffix with
  | nil =>
      intro P hP
      rw [List.append_nil] at hP
      rw [List.foldl_nil, hP]
  | cons q rest ih =>
      intro P hP
      rw [List.foldl_cons]
      rw [buildStep_correct qs hasc hwf P q rest hP]
      apply ih (P ++ [q])
      rw [hP, List.append_cons]

/-- After the build phase the lookup binds every quest to its id with
singleton snapshots of its children, and the recorded roots are the
chain-id-free quests' ids in order. -/
theorem buildPhase_eq (qs : Store) (hasc : ascendingIdsB qs = true)
    (hwf : parentBeforeChildB qs = true) :
    buildPhase qs = (mapOf qs, rootsOf qs) := by
  unfold buildPhase
  have h := buildPhase_go qs hasc hwf qs [] (by rw [List.nil_append])
  simpa [mapOf, rootsOf] using h

/-! #### Correctness of the reconciliation (`connect`) phase -/

theorem perm_middle_swap {α : Type} (A B C : List α) :
    (A ++ (B ++ C)).Perm (B ++ (A ++ C)) := by
  have h2 := (@List.perm_append_comm _ A B).append_right C
  rw [List.append_assoc, List.append_assoc] at h2
  exact h2

/-- No quest reaches a sibling: two distinct children of `q` (or one and
itself) are never related by reachability. -/
theorem sibling_unreachable (qs : Store) (hasc : ascendingIdsB qs = true)
    (hwf : parentBeforeChildB qs = true) (q a b : Quest)
    (hq : q ∈ qs) (ha : a ∈ qs) (hb : b ∈ qs)
    (hac : a.chain_id = some q.id) (hbc : b.chain_id = some q.id) :
    ¬ ReachesFrom qs a.id b.id := by
  intro hreach
  rcases reaches_inversion qs hasc a.id b.id hreach b hb rfl with h | ⟨p, hp, hap⟩
  · rw [hbc] at h
    have hqa : q.id = a.id := Option.some.inj h
    have := parent_lt_of_wf qs hwf a ha q.id hac
    omega
  · rw [hbc] at hp
    have hpq : q.id = p := Option.some.inj hp
    rw [← hpq] at hap
    have h1 := reaches_lt qs hwf a.id q.id hap
    have h2 := parent_lt_of_wf qs hwf a ha q.id hac
    omega

theorem connect_correct (qs : Store) (hasc : ascendingIdsB qs = true)
    (hwf : parentBeforeChildB qs = true) :
    ∀ fuel : Nat, ∀ (q : Quest) (S : List Quest),
      q ∈ qs → List.Sublist S qs →
      (∀ r ∈ qs, ReachesFrom qs q.id r.id → r ∈ S) →
      S.length < fuel →
      ∃ S2 : List Quest,
        connectGo fuel ⟨q, (childrenOf qs q.id).map fun c => ⟨c, []⟩⟩
            (S.map (entryOf qs)) =
          (trueTree qs fuel q, S2.map (entryOf qs)) ∧
        List.Sublist S2 S ∧
        (∀ r : Quest, r ∈ S2 ↔ (r ∈ S ∧ ¬ ReachesFrom qs q.id r.id)) ∧
        (q :: S).Perm (preorderF fuel (trueTree qs fuel q) ++ S2) := by
  intro fuel
  induction fuel with
  | zero =>
      intro q S _ _ _ hlen
      omega
  | succ fuel ih =>
      intro q S hq hsub hdesc hlen
      have hnoreach_of_nochild : childrenOf qs q.id = [] →
          ∀ r : Quest, ¬ ReachesFrom qs q.id r.id := by
        intro hempty r hreach
        rcases reaches_child_exists qs q.id r.id hreach with ⟨cq, hcq, hcqc⟩
        have hmem : cq ∈ childrenOf qs q.id :=
          List.mem_filter.mpr ⟨hcq, by simp [hcqc]⟩
        rw [hempty] at hmem
        cases hmem
      by_cases hempty : childrenOf qs q.id = []
      · refine ⟨S, ?_, List.Sublist.refl S, ?_, ?_⟩
        · simp [connectGo, trueTree, hempty]
        · intro r
          exact ⟨fun h => ⟨h, hnoreach_of_nochild hempty r⟩, fun h => h.1⟩
        · simp [preorderF, trueTree, hempty]
      · -- nonempty children: reconcile each child in order
        have hfold : ∀ cs : List Quest, List.Sublist cs qs →
            (∀ c ∈ cs, c.chain_id = some q.id) →
            ∀ (S' : List Quest) (accChains : List Chain),
            (∀ c ∈ cs, c ∈ S') →
            (∀ c ∈ cs, ∀ r ∈ qs, ReachesFrom qs c.id r.id → r ∈ S') →
            List.Sublist S' qs →
            S'.length ≤ fuel →
            ∃ S2 : List Quest,
              List.foldl
                (fun (acc : List Chain × ChainMap) (child : Chain) =>
                  let rm := mapRemove acc.2 child.main.id
                  let child1 : Chain := ⟨child.main, ((rm.1).map Chain.chains).getD child.chains⟩
                  let rc := connectGo fuel child1 rm.2
                  (acc.1 ++ [rc.1], rc.2))
                (accChains, S'.map (entryOf qs)) (cs.map fun c => ⟨c, []⟩) =
                (accChains ++ cs.map (trueTree qs fuel), S2.map (entryOf qs)) ∧
              List.Sublist S2 S' ∧
              (∀ r : Quest, r ∈ S2 ↔
                (r ∈ S' ∧ ¬ ∃ c ∈ cs, r = c ∨ ReachesFrom qs c.id r.id)) ∧
              S'.Perm (S2 ++
                (cs.map fun c => preorderF fuel (trueTree qs fuel c)).flatten) := by
          intro cs
          induction cs with
          | nil =>
              intro _ _ S' accChains _ _ _ _
              refine ⟨S', by simp, List.Sublist.refl S', ?_, by simp⟩
              intro r
              simp
          | cons c crest ihc =>
              intro hcssub hchild S' accChains hmemS hdescs hS'sub hS'len
              have hcqs : c ∈ qs := hcssub.subset (List.mem_cons_self c crest)
              have hcS' : c ∈ S' := hmemS c (List.mem_cons_self c crest)
              have hcchild : c.chain_id = some q.id := hchild c (List.mem_cons_self c crest)
              have hcrest_sub : List.Sublist crest qs :=
                List.Sublist.trans (List.sublist_cons_self c crest) hcssub
              have hcs_nodup : (c :: crest).Nodup :=
                (rows_nodup_of_asc qs hasc).sublist hcssub
              have hS'_nodup : S'.Nodup := (rows_nodup_of_asc qs hasc).sublist hS'sub
              have huniq : ∀ x ∈ S', x.id = c.id → x = c := fun x hx hxid =>
                row_eq_of_id_eq qs hasc x c (hS'sub.subset hx) hcqs hxid
              have hrm : mapRemove (S'.map (entryOf qs)) c.id =
                  (some ⟨c, (childrenOf qs c.id).map fun c2 => ⟨c2, []⟩⟩,
                   (S'.erase c).map (entryOf qs)) := by
                have h1 := mapRemove_map
                  (fun r => (⟨r, (childrenOf qs r.id).map fun c2 => ⟨c2, []⟩⟩ : Chain))
                  c.id S'
                rw [find?_id_unique c S' hcS' huniq, eraseP_id_eq_erase c S' huniq] at h1
                exact h1
              have herase_sub_qs : List.Sublist (S'.erase c) qs :=
                List.Sublist.trans (List.erase_sublist c S') hS'sub
              have hlen_pos : 1 ≤ S'.length :=
                List.length_pos.mpr (List.ne_nil_of_mem hcS')
              rcases ih c (S'.erase c) hcqs herase_sub_qs
                  (by
                    intro r hr hreach
                    have hrS' : r ∈ S' :=
                      hdescs c (List.mem_cons_self c crest) r hr hreach
                    have hne : r ≠ c := by
                      intro h
                      have := reaches_lt qs hwf c.id r.id hreach
                      rw [h] at this
                      omega
                    exact (List.mem_erase_of_ne hne).mpr hrS')
                  (by
                    rw [List.length_erase_of_mem hcS']
                    omega)
                with ⟨S2c, hconn, hsub2c, hmem2c, hperm2c⟩
              have hsibling : ∀ a b : Quest, a ∈ qs → b ∈ qs →
                  a.chain_id = some q.id → b.chain_id = some q.id →
                  ¬ ReachesFrom qs a.id b.id := fun a b ha hb hac hbc =>
                sibling_unreachable qs hasc hwf q a b hq ha hb hac hbc
              have hnotc : ∀ c2 ∈ crest, c2 ≠ c := by
                intro c2 hc2 h
                have hninc := (List.nodup_cons.mp hcs_nodup).1
                rw [← h] at hninc
                exact hninc hc2
              have hmem_crest : ∀ c2 ∈ crest, c2 ∈ S2c := by
                intro c2 hc2
                have hc2qs : c2 ∈ qs := hcrest_sub.subset hc2
                have hc2S' : c2 ∈ S' := hmemS c2 (List.mem_cons_of_mem c hc2)
                apply (hmem2c c2).mpr
                refine ⟨(List.mem_erase_of_ne (hnotc c2 hc2)).mpr hc2S', ?_⟩
                exact hsibling c c2 hcqs hc2qs hcchild
                  (hchild c2 (List.mem_cons_of_mem c hc2))
              have hdesc_crest : ∀ c2 ∈ crest, ∀ r ∈ qs,
                  ReachesFrom qs c2.id r.id → r ∈ S2c := by
                intro c2 hc2 r hr hreach
                have hc2qs : c2 ∈ qs := hcrest_sub.subset hc2
                have hc2child := hchild c2 (List.mem_cons_of_mem c hc2)
                have hrS' : r ∈ S' :=
                  hdescs c2 (List.mem_cons_of_mem c hc2) r hr hreach
                apply (hmem2c r).mpr
                constructor
                · apply (List.mem_erase_of_ne ?_).mpr hrS'
                  intro h
                  rw [h] at hreach
                  exact hsibling c2 c hc2qs hcqs hc2child hcchild hreach
                · intro hreach_c
                  rcases reaches_both qs hasc c.id r.id hreach_c c2.id hreach with
                    heq | hr1 | hr2
                  · exact hnotc c2 hc2
                      (row_eq_of_id_eq qs hasc c2 c hc2qs hcqs heq.symm)
                  · exact hsibling c c2 hcqs hc2qs hcchild hc2child hr1
                  · exact hsibling c2 c hc2qs hcqs hc2child hcchild hr2
              have hS2c_sub_qs : List.Sublist S2c qs :=
                List.Sublist.trans hsub2c herase_sub_qs
              have hS2c_len : S2c.length ≤ fuel := by
                have h1 := hsub2c.length_le
                have h2 : (S'.erase c).length = S'.length - 1 :=
                  List.length_erase_of_mem hcS'
                omega
              rcases ihc hcrest_sub
                  (fun c2 hc2 => hchild c2 (List.mem_cons_of_mem c hc2))
                  S2c (accChains ++ [trueTree qs fuel c]) hmem_crest hdesc_crest
                  hS2c_sub_qs hS2c_len with ⟨S2, hfold2, hsub3, hmem3, hperm3⟩
              refine ⟨S2, ?_, ?_, ?_, ?_⟩
              · rw [List.map_cons, List.foldl_cons]
                simp only [hrm]
                simp only [Option.map_some', Option.getD_some]
                simp only [hconn]
                rw [hfold2]
                simp [List.append_assoc]
              · exact List.Sublist.trans hsub3
                  (List.Sublist.trans hsub2c (List.erase_sublist c S'))
              · intro r
                rw [hmem3 r, hmem2c r]
                constructor
                · rintro ⟨⟨hrErase, hrNotC⟩, hrNoCrest⟩
                  refine ⟨List.mem_of_mem_erase hrErase, ?_⟩
                  rintro ⟨c2, hc2, hcase⟩
                  rcases List.mem_cons.mp hc2 with h | h
                  · subst h
                    rcases hcase with h1 | h1
                    · rw [h1] at hrErase
                      exact (hS'_nodup.mem_erase_iff.mp hrErase).1 rfl
                    · exact hrNotC h1
                  · exact hrNoCrest ⟨c2, h, hcase⟩
                · rintro ⟨hrS', hrNone⟩
                  have hrne : r ≠ c := fun h =>
                    hrNone ⟨c, List.mem_cons_self c crest, Or.inl h⟩
                  refine ⟨⟨(List.mem_erase_of_ne hrne).mpr hrS', ?_⟩, ?_⟩
                  · exact fun h => hrNone ⟨c, List.mem_cons_self c crest, Or.inr h⟩
                  · rintro ⟨c2, hc2, hcase⟩
                    exact hrNone ⟨c2, List.mem_cons_of_mem c hc2, hcase⟩
              · have hp1 : S'.Perm (c :: S'.erase c) := List.perm_cons_erase hcS'
                have hp4 := (hp1.trans hperm2c).trans
                  (List.Perm.append_left (preorderF fuel (trueTree qs fuel c)) hperm3)
                rw [List.map_cons, List.flatten_cons]
                exact hp4.trans
                  (perm_middle_swap (preorderF fuel (trueTree qs fuel c)) S2 _)
        have hchildren_sub : List.Sublist (childrenOf qs q.id) qs :=
          List.filter_sublist qs
        have hchild_eq : ∀ c ∈ childrenOf qs q.id, c.chain_id = some q.id := by
          intro c hc
          have := (List.mem_filter.mp hc).2
          simpa using this
        have hmemS : ∀ c ∈ childrenOf qs q.id, c ∈ S := fun c hc =>
          hdesc c (hchildren_sub.subset hc)
            (ReachesFrom.child c (hchildren_sub.subset hc) (hchild_eq c hc))
        have hdescS : ∀ c ∈ childrenOf qs q.id, ∀ r ∈ qs,
            ReachesFrom qs c.id r.id → r ∈ S := fun c hc r hr hreach =>
          hdesc r hr (reaches_trans qs q.id c.id r.id
            (ReachesFrom.child c (hchildren_sub.subset hc) (hchild_eq c hc)) hreach)
        rcases hfold (childrenOf qs q.id) hchildren_sub hchild_eq S [] hmemS hdescS
            hsub (by omega) with ⟨S2, hfoldr, hsubS2, hmemS2, hpermS2⟩
        refine ⟨S2, ?_, hsubS2, ?_, ?_⟩
        · have hne : ¬((((childrenOf qs q.id).map fun c => (⟨c, []⟩ : Chain)).isEmpty)
              = true) := by
            simp [hempty]
          simp only [connectGo]
          rw [if_neg hne]
          rw [hfoldr]
          simp only [List.nil_append]
          rfl
        · intro r
          rw [hmemS2 r]
          constructor
          · rintro ⟨hrS, hno⟩
            refine ⟨hrS, ?_⟩
            intro hreach
            rcases reaches_decomp qs q.id r.id hreach with ⟨c, hcmem, hcc, hcase⟩
            have hcchildren : c ∈ childrenOf qs q.id :=
              List.mem_filter.mpr ⟨hcmem, by simp [hcc]⟩
            apply hno
            refine ⟨c, hcchildren, ?_⟩
            rcases hcase with h | h
            · exact Or.inl (row_eq_of_id_eq qs hasc r c (hsub.subset hrS) hcmem h.symm)
            · exact Or.inr h
          · rintro ⟨hrS, hnoreach⟩
            refine ⟨hrS, ?_⟩
            rintro ⟨c, hc, hcase⟩
            apply hnoreach
            have hcmem : c ∈ qs := hchildren_sub.subset hc
            rcases hcase with h | h
            · rw [h]
              exact ReachesFrom.child c hcmem (hchild_eq c hc)
            · exact reaches_trans qs q.id c.id r.id
                (ReachesFrom.child c hcmem (hchild_eq c hc)) h
        · have hpre : preorderF (fuel + 1) (trueTree qs (fuel + 1) q) =
              q :: ((childrenOf qs q.id).map
                fun c => preorderF fuel (trueTree qs fuel c)).flatten := by
            simp only [preorderF, trueTree, List.map_map]
            rfl
          rw [hpre, List.cons_append]
          exact List.Perm.cons q (hpermS2.trans List.perm_append_comm)

/-! #### Assembling the forest over the roots -/

/-- A root quest is reachable from nothing. -/
theorem root_unreachable (qs : Store) (hasc : ascendingIdsB qs = true)
    (d : Quest) (hd : d ∈ qs) (hroot : d.chain_id = none) (a : Int) :
    ¬ ReachesFrom qs a d.id := by
  intro h
  rcases reaches_target_has_parent qs a d.id h with ⟨q, hq, hqid, p, hqc⟩
  have : q = d := row_eq_of_id_eq qs hasc q d hq hd hqid
  rw [this, hroot] at hqc
  cases hqc

/-- The root of every chain: every quest is a root or reachable from a
root. -/
theorem root_covers (qs : Store) (hasc : ascendingIdsB qs = true)
    (hwf : parentBeforeChildB qs = true) :
    ∀ r ∈ qs, ∃ d ∈ qs, d.chain_id = none ∧
      (r = d ∨ ReachesFrom qs d.id r.id) := by
  have main : ∀ n : Nat, ∀ r ∈ qs,
      (qs.filter fun x => decide (x.id < r.id)).length ≤ n →
      ∃ d ∈ qs, d.chain_id = none ∧ (r = d ∨ ReachesFrom qs d.id r.id) := by
    intro n
    induction n with
    | zero =>
        intro r hr hm
        rcases hchain : r.chain_id with _ | p
        · exact ⟨r, hr, hchain, Or.inl rfl⟩
        · rcases parent_mem_of_wf qs hwf r hr p hchain with ⟨par, hpar, hparid⟩
          have hplt : p < r.id := parent_lt_of_wf qs hwf r hr p hchain
          have : par ∈ qs.filter fun x => decide (x.id < r.id) :=
            List.mem_filter.mpr ⟨hpar, by simp [hparid, hplt]⟩
          have := List.length_pos.mpr (List.ne_nil_of_mem this)
          omega
    | succ n ihn =>
        intro r hr hm
        rcases hchain : r.chain_id with _ | p
        · exact ⟨r, hr, hchain, Or.inl rfl⟩
        · rcases parent_mem_of_wf qs hwf r hr p hchain with ⟨par, hpar, hparid⟩
          have hplt : p < r.id := parent_lt_of_wf qs hwf r hr p hchain
          have hmlt : (qs.filter fun x => decide (x.id < par.id)).length <
              (qs.filter fun x => decide (x.id < r.id)).length := by
            apply filter_length_lt_of_witness _ _ qs ?_ par hpar ?_ ?_
            · intro a _ ha
              have := of_decide_eq_true ha
              rw [hparid] at this
              exact decide_eq_true (by omega)
            · exact decide_eq_true (by omega)
            · exact decide_eq_false (by omega)
          rcases ihn par hpar (by omega) with ⟨d, hd, hdroot, hcase⟩
          refine ⟨d, hd, hdroot, Or.inr ?_⟩
          rcases hcase with h | h
          · rw [h] at hparid
            rw [← hparid] at hchain
            exact ReachesFrom.child r hr hchain
          · rw [← hparid] at hchain
            exact ReachesFrom.step r par.id hr h hchain
  intro r hr
  exact main (qs.filter fun x => decide (x.id < r.id)).length r hr le_rfl

theorem trueTree_main (qs : Store) (fuel : Nat) (r : Quest) :
    (trueTree qs fuel r).main = r := by
  cases fuel with
  | zero => rfl
  | succ fuel => rfl

/-- The ideal tree's edges all mirror `chain_id`, given fuel above the
subtree depth. -/
theorem edge_ok_trueTree (qs : Store) (hasc : ascendingIdsB qs = true)
    (hwf : parentBeforeChildB qs = true) :
    ∀ fuel : Nat, ∀ r ∈ qs,
      (qs.filter fun x => decide (r.id < x.id)).length < fuel →
      edgeOkF fuel (trueTree qs fuel r) = true := by
  intro fuel
  induction fuel with
  | zero =>
      intro r _ hm
      omega
  | succ fuel ihf =>
      intro r hr hm
      unfold trueTree edgeOkF
      apply List.all_eq_true.mpr
      intro c2 hc2
      rcases List.mem_map.mp hc2 with ⟨c, hc, hcc2⟩
      have hcqs : c ∈ qs := (List.filter_sublist qs).subset hc
      have hcchild : c.chain_id = some r.id := by
        have := (List.mem_filter.mp hc).2
        simpa using this
      have hlt : r.id < c.id := parent_lt_of_wf qs hwf c hcqs r.id hcchild
      have hmlt : (qs.filter fun x => decide (c.id < x.id)).length <
          (qs.filter fun x => decide (r.id < x.id)).length := by
        apply filter_length_lt_of_witness _ _ qs ?_ c hcqs ?_ ?_
        · intro a _ ha
          have := of_decide_eq_true ha
          exact decide_eq_true (by omega)
        · exact decide_eq_true (by omega)
        · exact decide_eq_false (by omega)
      rw [← hcc2]
      apply Bool.and_eq_true_iff.mpr
      constructor
      · rw [trueTree_main]
        simp [hcchild]
      · exact ihf c hcqs (by omega)

/-- `get_all_chains` returns exactly the ideal tree of every root quest,
in store order, and its pre-order flattening is a permutation of the
store. -/
theorem getAllChains_correct (qs : Store) (hasc : ascendingIdsB qs = true)
    (hwf : parentBeforeChildB qs = true) :
    getAllChains qs =
      ((qs.filter fun r => r.chain_id == none).map (trueTree qs (qs.length + 1))) ∧
    (forestQuests (qs.length + 1) (getAllChains qs)).Perm qs := by
  have hfoldroots : ∀ ds : List Quest, List.Sublist ds qs →
      (∀ d ∈ ds, d.chain_id = none) →
      ∀ (S : List Quest) (accChains : List Chain),
      (∀ d ∈ ds, d ∈ S) →
      (∀ d ∈ ds, ∀ r ∈ qs, ReachesFrom qs d.id r.id → r ∈ S) →
      List.Sublist S qs →
      ∃ S2 : List Quest,
        List.foldl
          (fun (acc : List Chain × ChainMap) (rootId : Int) =>
            let rm := mapRemove acc.2 rootId
            let rootChain := rm.1.getD defaultChain
            let rc := connectGo (qs.length + 1) rootChain rm.2
            (acc.1 ++ [rc.1], rc.2))
          (accChains, S.map (entryOf qs)) (ds.map Quest.id) =
          (accChains ++ ds.map (trueTree qs (qs.length + 1)), S2.map (entryOf qs)) ∧
        (∀ r : Quest, r ∈ S2 ↔
          (r ∈ S ∧ ¬ ∃ d ∈ ds, r = d ∨ ReachesFrom qs d.id r.id)) ∧
        S.Perm (S2 ++ (ds.map fun d =>
          preorderF (qs.length + 1) (trueTree qs (qs.length + 1) d)).flatten) := by
    intro ds
    induction ds with
    | nil =>
        intro _ _ S accChains _ _ _
        refine ⟨S, by simp, ?_, by simp⟩
        intro r
        simp
    | cons d drest ihd =>
        intro hdssub hdsroot S accChains hmemS hdescS hSsub
        have hdqs : d ∈ qs := hdssub.subset (List.mem_cons_self d drest)
        have hdS : d ∈ S := hmemS d (List.mem_cons_self d drest)
        have hdroot : d.chain_id = none := hdsroot d (List.mem_cons_self d drest)
        have hdrest_sub : List.Sublist drest qs :=
          List.Sublist.trans (List.sublist_cons_self d drest) hdssub
        have hds_nodup : (d :: drest).Nodup :=
          (rows_nodup_of_asc qs hasc).sublist hdssub
        have hnotd : ∀ d2 ∈ drest, d2 ≠ d := by
          intro d2 hd2 h
          have hnin := (List.nodup_cons.mp hds_nodup).1
          rw [← h] at hnin
          exact hnin hd2
        have huniq : ∀ x ∈ S, x.id = d.id → x = d := fun x hx hxid =>
          row_eq_of_id_eq qs hasc x d (hSsub.subset hx) hdqs hxid
        have hrm : mapRemove (S.map (entryOf qs)) d.id =
            (some ⟨d, (childrenOf qs d.id).map fun c2 => ⟨c2, []⟩⟩,
             (S.erase d).map (entryOf qs)) := by
          have h1 := mapRemove_map
            (fun r => (⟨r, (childrenOf qs r.id).map fun c2 => ⟨c2, []⟩⟩ : Chain))
            d.id S
          rw [find?_id_unique d S hdS huniq, eraseP_id_eq_erase d S huniq] at h1
          exact h1
        have herase_sub_qs : List.Sublist (S.erase d) qs :=
          List.Sublist.trans (List.erase_sublist d S) hSsub
        have hlen_pos : 1 ≤ S.length := List.length_pos.mpr (List.ne_nil_of_mem hdS)
        rcases connect_correct qs hasc hwf (qs.length + 1) d (S.erase d) hdqs
            herase_sub_qs
            (by
              intro r hr hreach
              have hrS : r ∈ S := hdescS d (List.mem_cons_self d drest) r hr hreach
              have hne : r ≠ d := by
                intro h
                have := reaches_lt qs hwf d.id r.id hreach
                rw [h] at this
                omega
              exact (List.mem_erase_of_ne hne).mpr hrS)
            (by
              have h1 := hSsub.length_le
              rw [List.length_erase_of_mem hdS]
              omega)
          with ⟨S2d, hconn, hsub2d, hmem2d, hperm2d⟩
        have hmem_drest : ∀ d2 ∈ drest, d2 ∈ S2d := by
          intro d2 hd2
          have hd2qs : d2 ∈ qs := hdrest_sub.subset hd2
          apply (hmem2d d2).mpr
          refine ⟨(List.mem_erase_of_ne (hnotd d2 hd2)).mpr
            (hmemS d2 (List.mem_cons_of_mem d hd2)), ?_⟩
          exact root_unreachable qs hasc d2 hd2qs
            (hdsroot d2 (List.mem_cons_of_mem d hd2)) d.id
        have hdesc_drest : ∀ d2 ∈ drest, ∀ r ∈ qs,
            ReachesFrom qs d2.id r.id → r ∈ S2d := by
          intro d2 hd2 r hr hreach
          have hd2qs : d2 ∈ qs := hdrest_sub.subset hd2
          have hd2root := hdsroot d2 (List.mem_cons_of_mem d hd2)
          have hrS : r ∈ S := hdescS d2 (List.mem_cons_of_mem d hd2) r hr hreach
          apply (hmem2d r).mpr
          constructor
          · apply (List.mem_erase_of_ne ?_).mpr hrS
            intro h
            rw [h] at hreach
            exact root_unreachable qs hasc d hdqs hdroot d2.id hreach
          · intro hreach_d
            rcases reaches_both qs hasc d.id r.id hreach_d d2.id hreach with
              heq | hr1 | hr2
            · exact hnotd d2 hd2 (row_eq_of_id_eq qs hasc d2 d hd2qs hdqs heq.symm)
            · exact root_unreachable qs hasc d2 hd2qs hd2root d.id hr1
            · exact root_unreachable qs hasc d hdqs hdroot d2.id hr2
        have hS2d_sub_qs : List.Sublist S2d qs :=
          List.Sublist.trans hsub2d herase_sub_qs
        rcases ihd hdrest_sub (fun d2 hd2 => hdsroot d2 (List.mem_cons_of_mem d hd2))
            S2d (accChains ++ [trueTree qs (qs.length + 1) d]) hmem_drest hdesc_drest
            hS2d_sub_qs with ⟨S2, hfold2, hmem3, hperm3⟩
        refine ⟨S2, ?_, ?_, ?_⟩
        · rw [List.map_cons, List.foldl_cons]
          simp only [hrm]
          simp only [Option.getD_some]
          simp only [hconn]
          rw [hfold2]
          simp [List.append_assoc]
        · intro r
          rw [hmem3 r, hmem2d r]
          have hS_nodup : S.Nodup := (rows_nodup_of_asc qs hasc).sublist hSsub
          constructor
          · rintro ⟨⟨hrErase, hrNotD⟩, hrNoRest⟩
            refine ⟨List.mem_of_mem_erase hrErase, ?_⟩
            rintro ⟨d2, hd2, hcase⟩
            rcases List.mem_cons.mp hd2 with h | h
            · subst h
              rcases hcase with h1 | h1
              · rw [h1] at hrErase
                exact (hS_nodup.mem_erase_iff.mp hrErase).1 rfl
              · exact hrNotD h1
            · exact hrNoRest ⟨d2, h, hcase⟩
          · rintro ⟨hrS, hrNone⟩
            have hrne : r ≠ d := fun h =>
              hrNone ⟨d, List.mem_cons_self d drest, Or.inl h⟩
            refine ⟨⟨(List.mem_erase_of_ne hrne).mpr hrS, ?_⟩, ?_⟩
            · exact fun h => hrNone ⟨d, List.mem_cons_self d drest, Or.inr h⟩
            · rintro ⟨d2, hd2, hcase⟩
              exact hrNone ⟨d2, List.mem_cons_of_mem d hd2, hcase⟩
        · have hp1 : S.Perm (d :: S.erase d) := List.perm_cons_erase hdS
          have hp4 := (hp1.trans hperm2d).trans
            (List.Perm.append_left
              (preorderF (qs.length + 1) (trueTree qs (qs.length + 1) d)) hperm3)
          rw [List.map_cons, List.flatten_cons]
          exact hp4.trans (perm_middle_swap
            (preorderF (qs.length + 1) (trueTree qs (qs.length + 1) d)) S2 _)
  have hrootsub : List.Sublist (qs.filter fun r => r.chain_id == none) qs :=
    List.filter_sublist qs
  have hrootnone : ∀ d ∈ (qs.filter fun r => r.chain_id == none),
      d.chain_id = none := by
    intro d hd
    have := (List.mem_filter.mp hd).2
    simpa using this
  rcases hfoldroots (qs.filter fun r => r.chain_id == none) hrootsub hrootnone qs []
      (fun d hd => hrootsub.subset hd) (fun d _ r hr _ => hr)
      (List.Sublist.refl qs) with ⟨S2, hfold, hmem, hperm⟩
  have hS2nil : S2 = [] := by
    apply List.eq_nil_iff_forall_not_mem.mpr
    intro r hrS2
    rcases (hmem r).mp hrS2 with ⟨hrqs, hno⟩
    rcases root_covers qs hasc hwf r hrqs with ⟨d, hdqs, hdroot, hcase⟩
    exact hno ⟨d, List.mem_filter.mpr ⟨hdqs, by simp [hdroot]⟩, hcase⟩
  have hga : getAllChains qs =
      ((qs.filter fun r => r.chain_id == none).map (trueTree qs (qs.length + 1))) := by
    simp only [getAllChains, getAllQuests]
    rw [buildPhase_eq qs hasc hwf]
    simp only [mapOf, rootsOf]
    rw [hfold]
    simp
  refine ⟨hga, ?_⟩
  rw [hS2nil] at hperm
  rw [List.nil_append] at hperm
  rw [hga]
  have : forestQuests (qs.length + 1)
      ((qs.filter fun r => r.chain_id == none).map (trueTree qs (qs.length + 1))) =
      ((qs.filter fun r => r.chain_id == none).map fun d =>
        preorderF (qs.length + 1) (trueTree qs (qs.length + 1) d)).flatten := by
    unfold forestQuests
    rw [List.map_map]
    rfl
  rw [this]
  exact hperm.symm

/-- C1: for every quest list ordered ascending by id in which every
present `chain_id` references a quest with a smaller id, the forest
returned by `get_all_chains` (build phase then `connect` reconciliation)
has a pre-order flattening that is a permutation of the input list, and
throughout the forest every child chain's quest carries its parent chain's
quest id as its `chain_id`. -/
theorem get_all_chains_reconstructs_forest (qs : Store)
    (hasc : ascendingIdsB qs = true) (hwf : parentBeforeChildB qs = true) :
    (forestQuests (qs.length + 1) (getAllChains qs)).Perm qs ∧
    ∀ c ∈ getAllChains qs, edgeOkF (qs.length + 1) c = true := by
  rcases getAllChains_correct qs hasc hwf with ⟨hga, hperm⟩
  refine ⟨hperm, ?_⟩
  intro c hc
  rw [hga] at hc
  rcases List.mem_map.mp hc with ⟨d, hd, hdc⟩
  rw [← hdc]
  apply edge_ok_trueTree qs hasc hwf (qs.length + 1) d
    ((List.filter_sublist qs).subset hd)
  have := List.length_filter_le (fun x => decide (d.id < x.id)) qs
  omega

/-- Witness for C1: the four-quest scenario is ascending with
parent-before-child references, and the reconstructed forest's pre-order
flattening is a permutation of it. -/
theorem get_all_chains_reconstructs_forest_witness :
    ascendingIdsB scenarioQuests = true ∧
    parentBeforeChildB scenarioQuests = true ∧
    (forestQuests (scenarioQuests.length + 1)
      (getAllChains scenarioQuests)).Perm scenarioQuests :=
  ⟨by decide, by decide,
   (get_all_chains_reconstructs_forest scenarioQuests (by decide) (by decide)).1⟩

end Pom
